import Mathlib

/-!
Verification of `netlify-functions-session-cookie` (src/index.js).

The development shallowly embeds the library and the parts of its external
collaborators that its behaviour depends on:

* the Node `Buffer` base64 and UTF-8 codecs (lenient decoding, as Node does);
* `encodeURIComponent` / `decodeURIComponent` (used by the `cookie` package);
* the `cookie` package's `parse` and `serialize` (version 0.4.x semantics);
* the `keygrip` package's `sign` / `verify`, parameterised by the HMAC-SHA256
  primitive `mac : String → String → String` (the cryptographic hash itself is
  an external primitive from `node:crypto` and is kept abstract);
* a JSON codec (`JSON.stringify` / `JSON.parse`).  JavaScript numbers are
  IEEE-754 doubles; the model restricts JSON numbers to integers (`Int`),
  which is exact on the integer values the library's tests and spec exercise;
  floating-point formatting is outside the model.
* JavaScript object reference identity is modelled by a small heap
  (`Heap := List JObj`) with addresses, so that "same reference" and
  "mutated in place" are expressible.

JavaScript strings are modelled as Lean `String` (sequences of Unicode
scalar values; lone UTF-16 surrogates are not representable, and
`String.substring` counts code points rather than UTF-16 units — exact on
the ASCII data the cookie protocol produces).
-/

/-- Character constants written via code points to keep the source ASCII-clean. -/
def quoteChar : Char := Char.ofNat 34

def backslashChar : Char := Char.ofNat 92

def pctChar : Char := Char.ofNat 37

def eqSignChar : Char := Char.ofNat 61

def semiChar : Char := Char.ofNat 59

def apostropheChar : Char := Char.ofNat 39

def backtickChar : Char := Char.ofNat 96

def lbraceChar : Char := Char.ofNat 123

def rbraceChar : Char := Char.ofNat 125

def lbrackChar : Char := Char.ofNat 91

def rbrackChar : Char := Char.ofNat 93

def commaChar : Char := Char.ofNat 44

def colonChar : Char := Char.ofNat 58

def minusChar : Char := Char.ofNat 45

def replacementChar : Char := Char.ofNat 0xFFFD

/-- JavaScript object lookup on an association list (own-property access). -/
def objGet {α : Type} (l : List (String × α)) (k : String) : Option α :=
  (l.find? (fun p => p.1 == k)).map Prod.snd

/-- JavaScript property assignment: replace in place if the key exists,
otherwise append (JS objects keep the original position of an updated key). -/
def objSet {α : Type} : List (String × α) → String → α → List (String × α)
  | [], k, v => [(k, v)]
  | (k', v') :: rest, k, v =>
    if k' == k then (k, v) :: rest else (k', v') :: objSet rest k v

/-- JavaScript `delete obj[k]`. -/
def objDelete {α : Type} (l : List (String × α)) (k : String) : List (String × α) :=
  l.filter (fun p => !(p.1 == k))

/-! ### UTF-8 (`Buffer.from(..., 'utf-8')` / `buf.toString('utf-8')`) -/

/-- UTF-8 encoding of one Unicode code point. -/
def utf8EncodeCP (c : Nat) : List Nat :=
  if c < 0x80 then [c]
  else if c < 0x800 then [0xC0 + c / 64, 0x80 + c % 64]
  else if c < 0x10000 then [0xE0 + c / 4096, 0x80 + c / 64 % 64, 0x80 + c % 64]
  else [0xF0 + c / 262144, 0x80 + c / 4096 % 64, 0x80 + c / 64 % 64, 0x80 + c % 64]

/-- UTF-8 bytes of a string. -/
def utf8Encode (s : String) : List Nat :=
  s.data.flatMap (fun c => utf8EncodeCP c.toNat)

/-- Decode one UTF-8 sequence from the front of a byte list; `none` when the
front is not a well-formed (shortest-form, non-surrogate, in-range) sequence. -/
def utf8Dec1 : List Nat → Option (Char × List Nat)
  | [] => none
  | b :: rest =>
    if b < 0x80 then some (Char.ofNat b, rest)
    else if 0xC2 ≤ b ∧ b ≤ 0xDF then
      match rest with
      | b1 :: r2 =>
        if 0x80 ≤ b1 ∧ b1 ≤ 0xBF then
          some (Char.ofNat ((b - 0xC0) * 64 + (b1 - 0x80)), r2)
        else none
      | [] => none
    else if 0xE0 ≤ b ∧ b ≤ 0xEF then
      match rest with
      | b1 :: b2 :: r3 =>
        if (0x80 ≤ b1 ∧ b1 ≤ 0xBF) ∧ (0x80 ≤ b2 ∧ b2 ≤ 0xBF) then
          if 0x800 ≤ (b - 0xE0) * 4096 + (b1 - 0x80) * 64 + (b2 - 0x80) ∧
              ¬(0xD800 ≤ (b - 0xE0) * 4096 + (b1 - 0x80) * 64 + (b2 - 0x80) ∧
                (b - 0xE0) * 4096 + (b1 - 0x80) * 64 + (b2 - 0x80) ≤ 0xDFFF) then
            some (Char.ofNat ((b - 0xE0) * 4096 + (b1 - 0x80) * 64 + (b2 - 0x80)), r3)
          else none
        else none
      | _ => none
    else if 0xF0 ≤ b ∧ b ≤ 0xF4 then
      match rest with
      | b1 :: b2 :: b3 :: r4 =>
        if (0x80 ≤ b1 ∧ b1 ≤ 0xBF) ∧ (0x80 ≤ b2 ∧ b2 ≤ 0xBF) ∧ (0x80 ≤ b3 ∧ b3 ≤ 0xBF) then
          if 0x10000 ≤ (b - 0xF0) * 262144 + (b1 - 0x80) * 4096 + (b2 - 0x80) * 64 + (b3 - 0x80) ∧
              (b - 0xF0) * 262144 + (b1 - 0x80) * 4096 + (b2 - 0x80) * 64 + (b3 - 0x80) ≤ 0x10FFFF then
            some (Char.ofNat ((b - 0xF0) * 262144 + (b1 - 0x80) * 4096 + (b2 - 0x80) * 64 + (b3 - 0x80)), r4)
          else none
        else none
      | _ => none
    else none

/-- Lossy UTF-8 decoding loop: an invalid byte is replaced by U+FFFD and
skipped, as Node's `buf.toString('utf-8')` does.  Fuel is the byte count. -/
def utf8DecodeLoop : Nat → List Nat → List Char
  | 0, _ => []
  | _ + 1, [] => []
  | fuel + 1, b :: rest =>
    match utf8Dec1 (b :: rest) with
    | some (c, r) => c :: utf8DecodeLoop fuel r
    | none => replacementChar :: utf8DecodeLoop fuel rest

/-- Lossy UTF-8 decoding of a byte list (model of `buf.toString('utf-8')`). -/
def utf8Decode (l : List Nat) : String :=
  String.mk (utf8DecodeLoop l.length l)

/-- Strict UTF-8 decoding loop (used by `decodeURIComponent`, which throws on
malformed sequences). -/
def utf8DecodeStrictLoop : Nat → List Nat → Option (List Char)
  | 0, [] => some []
  | 0, _ :: _ => none
  | _ + 1, [] => some []
  | fuel + 1, b :: rest =>
    match utf8Dec1 (b :: rest) with
    | some (c, r) => (utf8DecodeStrictLoop fuel r).map (fun cs => c :: cs)
    | none => none

/-- Strict UTF-8 decoding of a byte list. -/
def utf8DecodeStrict (l : List Nat) : Option String :=
  (utf8DecodeStrictLoop l.length l).map String.mk

/-! ### Base64 (`Buffer.from(s).toString('base64')` / `Buffer.from(s, 'base64')`) -/

/-- Standard base64 alphabet, by sextet value. -/
def b64Char (n : Nat) : Char :=
  if n < 26 then Char.ofNat (65 + n)
  else if n < 52 then Char.ofNat (97 + (n - 26))
  else if n < 62 then Char.ofNat (48 + (n - 52))
  else if n = 62 then Char.ofNat 43
  else Char.ofNat 47

/-- Sextet value of a base64 character; `none` for characters outside the
alphabet (Node's base64 decoder skips such characters, including padding). -/
def b64Val (c : Char) : Option Nat :=
  let n := c.toNat
  if 65 ≤ n ∧ n ≤ 90 then some (n - 65)
  else if 97 ≤ n ∧ n ≤ 122 then some (n - 97 + 26)
  else if 48 ≤ n ∧ n ≤ 57 then some (n - 48 + 52)
  else if n = 43 then some 62
  else if n = 47 then some 63
  else none

/-- Base64 encoding of a byte list, with `=` padding. -/
def b64EncodeBytes : List Nat → List Char
  | [] => []
  | [a] => [b64Char (a / 4), b64Char (a % 4 * 16), eqSignChar, eqSignChar]
  | [a, b] => [b64Char (a / 4), b64Char (a % 4 * 16 + b / 16), b64Char (b % 16 * 4), eqSignChar]
  | a :: b :: c :: rest =>
    b64Char (a / 4) :: b64Char (a % 4 * 16 + b / 16) :: b64Char (b % 16 * 4 + c / 64) ::
      b64Char (c % 64) :: b64EncodeBytes rest

/-- Regroup sextets into bytes; a trailing lone sextet carries fewer than
8 bits and is dropped, as in Node's lenient decoder. -/
def b64Regroup : List Nat → List Nat
  | a :: b :: c :: d :: rest =>
    (a * 4 + b / 16) :: (b % 16 * 16 + c / 4) :: (c % 4 * 64 + d) :: b64Regroup rest
  | [a, b] => [a * 4 + b / 16]
  | [a, b, c] => [a * 4 + b / 16, b % 16 * 16 + c / 4]
  | _ => []

/-- Lenient base64 decoding of a character list to bytes. -/
def b64Decode (cs : List Char) : List Nat :=
  b64Regroup (cs.filterMap b64Val)

/-- Model of `Buffer.from(s).toString('base64')`. -/
def b64EncodeStr (s : String) : String :=
  String.mk (b64EncodeBytes (utf8Encode s))

/-- Model of `Buffer.from(s, 'base64').toString('utf-8')`. -/
def b64DecodeStr (s : String) : String :=
  utf8Decode (b64Decode s.data)

/-! ### Decimal numerals -/

/-- Decimal digit character. -/
def digitChar10 (n : Nat) : Char := Char.ofNat (48 + n)

/-- Fueled most-significant-first decimal printer (accumulator style). -/
def natDecGo : Nat → Nat → List Char → List Char
  | 0, _, acc => acc
  | fuel + 1, n, acc =>
    if n < 10 then digitChar10 n :: acc
    else natDecGo fuel (n / 10) (digitChar10 (n % 10) :: acc)

/-- Decimal digits of a natural number. -/
def natDec (n : Nat) : List Char := natDecGo (n + 1) n []

/-- Decimal rendering of an integer (JavaScript `String(n)` for integers). -/
def intDecChars (i : Int) : List Char :=
  if i < 0 then minusChar :: natDec i.natAbs else natDec i.natAbs

/-! ### `encodeURIComponent` / `decodeURIComponent` -/

/-- Characters `encodeURIComponent` leaves unescaped:
letters, digits, and `- _ . ! ~ * ' ( )`. -/
def isUriUnreserved (c : Char) : Bool :=
  let n := c.toNat
  (65 ≤ n && n ≤ 90) || (97 ≤ n && n ≤ 122) || (48 ≤ n && n ≤ 57) ||
    (n == 45) || (n == 95) || (n == 46) || (n == 33) || (n == 126) ||
    (n == 42) || (n == 39) || (n == 40) || (n == 41)

/-- Uppercase hex digit. -/
def hexDigitU (n : Nat) : Char :=
  if n < 10 then Char.ofNat (48 + n) else Char.ofNat (55 + n)

/-- Percent-escape of one byte. -/
def pctEncodeByte (b : Nat) : List Char :=
  [pctChar, hexDigitU (b / 16), hexDigitU (b % 16)]

/-- Model of JavaScript `encodeURIComponent`. -/
def encodeURIComponent (s : String) : String :=
  String.mk (s.data.flatMap (fun c =>
    if isUriUnreserved c then [c] else (utf8EncodeCP c.toNat).flatMap pctEncodeByte))

/-- Hex digit value (either case). -/
def hexVal (c : Char) : Option Nat :=
  let n := c.toNat
  if 48 ≤ n ∧ n ≤ 57 then some (n - 48)
  else if 65 ≤ n ∧ n ≤ 70 then some (n - 65 + 10)
  else if 97 ≤ n ∧ n ≤ 102 then some (n - 97 + 10)
  else none

/-- Byte stream of a percent-encoded string: each `%XX` contributes the byte
`XX`, every other character contributes its UTF-8 bytes; `none` on a
malformed escape. -/
def pctDecodeBytes : List Char → Option (List Nat)
  | [] => some []
  | c :: rest =>
    if c = pctChar then
      match rest with
      | h1 :: h2 :: r2 =>
        match hexVal h1, hexVal h2 with
        | some a, some b => (pctDecodeBytes r2).map (fun bs => (a * 16 + b) :: bs)
        | _, _ => none
      | _ => none
    else (pctDecodeBytes rest).map (fun bs => utf8EncodeCP c.toNat ++ bs)

/-- Model of JavaScript `decodeURIComponent`; `none` models the thrown
`URIError` on a malformed escape or invalid UTF-8. -/
def decodeURIComponentM (s : String) : Option String :=
  (pctDecodeBytes s.data).bind utf8DecodeStrict

/-! ### The `cookie` package (version 0.4.x) -/

/-- JavaScript whitespace for `String.prototype.trim`. -/
def isJsWs (c : Char) : Bool :=
  let n := c.toNat
  (n == 32) || (9 ≤ n && n ≤ 13) || (n == 0xA0) || (n == 0xFEFF)

/-- Model of JavaScript `String.prototype.trim`. -/
def jsTrim (cs : List Char) : List Char :=
  ((cs.dropWhile isJsWs).reverse.dropWhile isJsWs).reverse

/-- Split a character list at every `;` (model of `str.split(';')`). -/
def splitSemi (cs : List Char) : List (List Char) :=
  cs.foldr
    (fun c acc =>
      if c = semiChar then [] :: acc
      else match acc with
        | [] => [[c]]
        | h :: t => (c :: h) :: t)
    [[]]

/-- Index of the first occurrence of a character (model of `indexOf`). -/
def idxOf : List Char → Char → Option Nat
  | [], _ => none
  | c :: rest, t =>
    if c = t then some 0 else (idxOf rest t).map Nat.succ

/-- The `cookie` package's `tryDecode`: apply the decoder only when a `%` is
present, and fall back to the raw string when decoding throws. -/
def cookieTryDecode (s : String) : String :=
  if s.data.contains pctChar then (decodeURIComponentM s).getD s else s

/-- Model of `cookie.parse` (0.4.x): split on `;`, take the text before the
first `=` as the name and the rest as the value, trim both, strip one layer
of surrounding quotes, percent-decode, and keep the first occurrence of each
name. -/
def cookieParse (s : String) : List (String × String) :=
  (splitSemi s.data).foldl
    (fun obj pair =>
      match idxOf pair eqSignChar with
      | none => obj
      | some i =>
        let key := String.mk (jsTrim (pair.take i))
        let val0 := jsTrim (pair.drop (i + 1))
        let val1 := if val0.head? = some quoteChar then (val0.drop 1).dropLast else val0
        match objGet obj key with
        | some _ => obj
        | none => objSet obj key (cookieTryDecode (String.mk val1)))
    []

/-- The `cookie` package's `fieldContentRegExp` test:
every character in TAB, 0x20–0x7E or 0x80–0xFF, and the string non-empty. -/
def fieldContentOk (s : String) : Bool :=
  (s.data.all (fun c =>
    let n := c.toNat
    (n == 9) || (32 ≤ n && n ≤ 126) || (128 ≤ n && n ≤ 255))) && !(s == "")

/-- Resolved cookie attributes (the option object built by
`getCookieOptions`); `httpOnly`/`secure` record attribute presence. -/
structure CookieOptions where
  httpOnly : Bool
  secure : Bool
  sameSite : String
  maxAge : Int
  path : String
  domain : Option String

/-- `Path`, `HttpOnly`, `Secure` and `SameSite` rendering of
`cookie.serialize`, shared by both `Domain` branches. -/
def cookieSerializeTail (str : String) (o : CookieOptions) : Except String String :=
  let pathDone : Except String String :=
    if o.path ≠ "" then
      if !fieldContentOk o.path then .error ("TypeError: option path is invalid")
      else .ok (str ++ "; Path=" ++ o.path)
    else .ok str
  match pathDone with
  | .error e => .error e
  | .ok str =>
    let str := if o.httpOnly then str ++ "; HttpOnly" else str
    let str := if o.secure then str ++ "; Secure" else str
    if o.sameSite = "strict" then .ok (str ++ "; SameSite=Strict")
    else if o.sameSite = "lax" then .ok (str ++ "; SameSite=Lax")
    else if o.sameSite = "none" then .ok (str ++ "; SameSite=None")
    else .error ("TypeError: option sameSite is invalid")

/-- Model of `cookie.serialize` (0.4.x) specialised to the option shapes the
library builds: validate name and encoded value, then append `Max-Age`,
`Domain`, `Path`, `HttpOnly`, `Secure` and `SameSite` in the package's
order.  Errors model the thrown `TypeError`s. -/
def cookieSerialize (name value : String) (o : CookieOptions) : Except String String :=
  if !fieldContentOk name then .error ("TypeError: argument name is invalid")
  else
    let enc := encodeURIComponent value
    if enc ≠ "" ∧ !fieldContentOk enc then .error ("TypeError: argument val is invalid")
    else
      let str := name ++ "=" ++ enc
      let str := str ++ "; Max-Age=" ++ String.mk (intDecChars o.maxAge)
      match o.domain with
      | some d =>
        if !fieldContentOk d then .error ("TypeError: option domain is invalid")
        else cookieSerializeTail (str ++ "; Domain=" ++ d) o
      | none => cookieSerializeTail str o

/-! ### JSON values

JavaScript session data: string-keyed objects of JSON-compatible values.
Mutual inductives (instead of nested `List` fields) keep all recursion
structural and hence kernel-reducible. -/

mutual

inductive JValue where
  | jnull : JValue
  | jbool : Bool → JValue
  | jnum : Int → JValue
  | jstr : String → JValue
  | jarr : JArr → JValue
  | jobj : JObj → JValue
  deriving DecidableEq

inductive JArr where
  | nil : JArr
  | cons : JValue → JArr → JArr
  deriving DecidableEq

inductive JObj where
  | nil : JObj
  | cons : String → JValue → JObj → JObj
  deriving DecidableEq

end

/-- Keys of a JSON object, in order. -/
def JObj.keys : JObj → List String
  | .nil => []
  | .cons k _ rest => k :: JObj.keys rest

/-- Object member list as pairs. -/
def JObj.toPairs : JObj → List (String × JValue)
  | .nil => []
  | .cons k v rest => (k, v) :: JObj.toPairs rest

/-- Lookup of a member (first occurrence). -/
def JObj.get? : JObj → String → Option JValue
  | .nil, _ => none
  | .cons k v rest, t => if k == t then some v else JObj.get? rest t

/-- JavaScript property assignment on a JSON object: overwrite in place,
else append. -/
def JObj.set : JObj → String → JValue → JObj
  | .nil, k, v => .cons k v .nil
  | .cons k' v' rest, k, v =>
    if k' == k then .cons k v rest else .cons k' v' (JObj.set rest k v)

/-- Array elements as a list. -/
def JArr.toList : JArr → List JValue
  | .nil => []
  | .cons v rest => v :: JArr.toList rest

/-! ### `JSON.stringify` -/

/-- Escape of one character inside a JSON string literal, as
`JSON.stringify` produces it: `\"` and `\\`, the short escapes
`\b \t \n \f \r`, `\u00XX` (lower-case hex) for the other control
characters, and every other character verbatim. -/
def jsonEscapeChar (c : Char) : List Char :=
  if c = quoteChar then [backslashChar, quoteChar]
  else if c = backslashChar then [backslashChar, backslashChar]
  else if c.toNat = 8 then [backslashChar, Char.ofNat 98]
  else if c.toNat = 9 then [backslashChar, Char.ofNat 116]
  else if c.toNat = 10 then [backslashChar, Char.ofNat 110]
  else if c.toNat = 12 then [backslashChar, Char.ofNat 102]
  else if c.toNat = 13 then [backslashChar, Char.ofNat 114]
  else if c.toNat < 32 then
    [backslashChar, Char.ofNat 117, Char.ofNat 48, Char.ofNat 48,
      (if c.toNat / 16 < 10 then Char.ofNat (48 + c.toNat / 16) else Char.ofNat (87 + c.toNat / 16)),
      (if c.toNat % 16 < 10 then Char.ofNat (48 + c.toNat % 16) else Char.ofNat (87 + c.toNat % 16))]
  else [c]

/-- JSON string literal for `s` (quotes included). -/
def jsonQuote (s : String) : List Char :=
  quoteChar :: s.data.flatMap jsonEscapeChar ++ [quoteChar]

mutual

/-- Characters of `JSON.stringify` output for a value (no whitespace). -/
def svVal : JValue → List Char
  | .jnull => [Char.ofNat 110, Char.ofNat 117, Char.ofNat 108, Char.ofNat 108]
  | .jbool true => [Char.ofNat 116, Char.ofNat 114, Char.ofNat 117, Char.ofNat 101]
  | .jbool false => [Char.ofNat 102, Char.ofNat 97, Char.ofNat 108, Char.ofNat 115, Char.ofNat 101]
  | .jnum i => intDecChars i
  | .jstr s => jsonQuote s
  | .jarr a => lbrackChar :: svElems a ++ [rbrackChar]
  | .jobj o => lbraceChar :: svMembers o ++ [rbraceChar]

/-- Comma-separated element renderings. -/
def svElems : JArr → List Char
  | .nil => []
  | .cons v .nil => svVal v
  | .cons v (.cons w rest) => svVal v ++ commaChar :: svElems (.cons w rest)

/-- Comma-separated member renderings. -/
def svMembers : JObj → List Char
  | .nil => []
  | .cons k v .nil => jsonQuote k ++ colonChar :: svVal v
  | .cons k v (.cons k2 v2 rest) =>
    jsonQuote k ++ colonChar :: svVal v ++ commaChar :: svMembers (.cons k2 v2 rest)

end

/-- Model of `JSON.stringify` on session data. -/
def jsonStringify (o : JObj) : String :=
  String.mk (svVal (.jobj o))

/-! ### `JSON.parse`

A recursive-descent parser with explicit fuel.  Restriction mirroring the
number model: only integer numerals are accepted (no fractions or
exponents); `JSON.parse` additionally accepts those, but the library only
ever feeds back its own `JSON.stringify` output, which, for integer data,
never contains them. -/

/-- JSON insignificant whitespace. -/
def isJsonWs (c : Char) : Bool :=
  let n := c.toNat
  (n == 32) || (n == 9) || (n == 10) || (n == 13)

/-- Skip insignificant whitespace. -/
def skipWs (cs : List Char) : List Char := cs.dropWhile isJsonWs

/-- Decimal digit test. -/
def isDigit10 (c : Char) : Bool := 48 ≤ c.toNat && c.toNat ≤ 57

/-- Value of a digit list, most significant first. -/
def digitsVal (ds : List Char) : Nat :=
  ds.foldl (fun acc c => acc * 10 + (c.toNat - 48)) 0

/-- Parse an unsigned JSON integer numeral: a non-empty digit run with no
leading zero (except the numeral `0` itself). -/
def pNat (cs : List Char) : Option (Nat × List Char) :=
  let ds := cs.takeWhile isDigit10
  if ds.isEmpty then none
  else if ds.head? = some (Char.ofNat 48) ∧ ds.length ≠ 1 then none
  else some (digitsVal ds, cs.drop ds.length)

/-- Parse a JSON integer numeral with optional minus sign. -/
def pInt (cs : List Char) : Option (Int × List Char) :=
  match cs with
  | c :: rest =>
    if c = minusChar then (pNat rest).map (fun p => (-(p.1 : Int), p.2))
    else (pNat cs).map (fun p => ((p.1 : Int), p.2))
  | [] => none

/-- Combine a UTF-16 surrogate pair; a lone surrogate from a `\u` escape
becomes U+FFFD (such code points are not representable in the model's
strings). -/
def pStringEscapeU (n : Nat) (cs : List Char) : Option (Char × List Char) :=
  if 0xD800 ≤ n ∧ n ≤ 0xDBFF then
    match cs with
    | c1 :: c2 :: h1 :: h2 :: h3 :: h4 :: rest =>
      if c1 = backslashChar ∧ c2 = Char.ofNat 117 then
        match hexVal h1, hexVal h2, hexVal h3, hexVal h4 with
        | some a, some b, some c, some d =>
          let low := a * 4096 + b * 256 + c * 16 + d
          if 0xDC00 ≤ low ∧ low ≤ 0xDFFF then
            some (Char.ofNat (0x10000 + (n - 0xD800) * 1024 + (low - 0xDC00)), rest)
          else some (replacementChar, c1 :: c2 :: h1 :: h2 :: h3 :: h4 :: rest)
        | _, _, _, _ => some (replacementChar, c1 :: c2 :: h1 :: h2 :: h3 :: h4 :: rest)
      else some (replacementChar, c1 :: c2 :: h1 :: h2 :: h3 :: h4 :: rest)
    | _ => some (replacementChar, cs)
  else if 0xDC00 ≤ n ∧ n ≤ 0xDFFF then some (replacementChar, cs)
  else some (Char.ofNat n, cs)

/-- Parse the body of a JSON string literal (after the opening quote),
returning the decoded characters; fuel is the character count. -/
def pStringBody : Nat → List Char → Option (List Char × List Char)
  | 0, _ => none
  | _ + 1, [] => none
  | fuel + 1, c :: rest =>
    if c = quoteChar then some ([], rest)
    else if c = backslashChar then
      match rest with
      | [] => none
      | e :: r2 =>
        if e = quoteChar then (pStringBody fuel r2).map (fun p => (quoteChar :: p.1, p.2))
        else if e = backslashChar then (pStringBody fuel r2).map (fun p => (backslashChar :: p.1, p.2))
        else if e = Char.ofNat 47 then (pStringBody fuel r2).map (fun p => (Char.ofNat 47 :: p.1, p.2))
        else if e = Char.ofNat 98 then (pStringBody fuel r2).map (fun p => (Char.ofNat 8 :: p.1, p.2))
        else if e = Char.ofNat 102 then (pStringBody fuel r2).map (fun p => (Char.ofNat 12 :: p.1, p.2))
        else if e = Char.ofNat 110 then (pStringBody fuel r2).map (fun p => (Char.ofNat 10 :: p.1, p.2))
        else if e = Char.ofNat 114 then (pStringBody fuel r2).map (fun p => (Char.ofNat 13 :: p.1, p.2))
        else if e = Char.ofNat 116 then (pStringBody fuel r2).map (fun p => (Char.ofNat 9 :: p.1, p.2))
        else if e = Char.ofNat 117 then
          match r2 with
          | h1 :: h2 :: h3 :: h4 :: r3 =>
            match hexVal h1, hexVal h2, hexVal h3, hexVal h4 with
            | some a, some b, some c', some d =>
              match pStringEscapeU (a * 4096 + b * 256 + c' * 16 + d) r3 with
              | some (ch, r4) => (pStringBody fuel r4).map (fun p => (ch :: p.1, p.2))
              | none => none
            | _, _, _, _ => none
          | _ => none
        else none
    else if c.toNat < 32 then none
    else (pStringBody fuel rest).map (fun p => (c :: p.1, p.2))

/-- Parse a JSON string literal including the opening quote. -/
def pString (cs : List Char) : Option (String × List Char) :=
  match cs with
  | c :: rest =>
    if c = quoteChar then (pStringBody (rest.length + 1) rest).map (fun p => (String.mk p.1, p.2))
    else none
  | [] => none

mutual

/-- Parse one JSON value (fuelled). -/
def pVal : Nat → List Char → Option (JValue × List Char)
  | 0, _ => none
  | fuel + 1, cs =>
    match skipWs cs with
    | [] => none
    | c :: rest =>
      if c = quoteChar then (pString (c :: rest)).map (fun p => (JValue.jstr p.1, p.2))
      else if c = lbraceChar then
        match skipWs rest with
        | c2 :: r2 =>
          if c2 = rbraceChar then some (JValue.jobj .nil, r2)
          else (pMembers fuel (c2 :: r2)).map (fun p => (JValue.jobj p.1, p.2))
        | [] => none
      else if c = lbrackChar then
        match skipWs rest with
        | c2 :: r2 =>
          if c2 = rbrackChar then some (JValue.jarr .nil, r2)
          else (pElems fuel (c2 :: r2)).map (fun p => (JValue.jarr p.1, p.2))
        | [] => none
      else if c = Char.ofNat 116 then
        match rest with
        | r1 :: r2 :: r3 :: r4 =>
          if r1 = Char.ofNat 114 ∧ r2 = Char.ofNat 117 ∧ r3 = Char.ofNat 101 then
            some (JValue.jbool true, r4)
          else none
        | _ => none
      else if c = Char.ofNat 102 then
        match rest with
        | r1 :: r2 :: r3 :: r4 :: r5 =>
          if r1 = Char.ofNat 97 ∧ r2 = Char.ofNat 108 ∧ r3 = Char.ofNat 115 ∧ r4 = Char.ofNat 101 then
            some (JValue.jbool false, r5)
          else none
        | _ => none
      else if c = Char.ofNat 110 then
        match rest with
        | r1 :: r2 :: r3 :: r4 =>
          if r1 = Char.ofNat 117 ∧ r2 = Char.ofNat 108 ∧ r3 = Char.ofNat 108 then
            some (JValue.jnull, r4)
          else none
        | _ => none
      else (pInt (c :: rest)).map (fun p => (JValue.jnum p.1, p.2))

/-- Parse one or more object members separated by commas, consuming the
closing brace. -/
def pMembers : Nat → List Char → Option (JObj × List Char)
  | 0, _ => none
  | fuel + 1, cs =>
    match pString (skipWs cs) with
    | none => none
    | some (k, r1) =>
      match skipWs r1 with
      | c :: r2 =>
        if c = colonChar then
          match pVal fuel r2 with
          | none => none
          | some (v, r3) =>
            match skipWs r3 with
            | c2 :: r4 =>
              if c2 = commaChar then (pMembers fuel r4).map (fun p => (JObj.cons k v p.1, p.2))
              else if c2 = rbraceChar then some (JObj.cons k v .nil, r4)
              else none
            | [] => none
        else none
      | [] => none

/-- Parse one or more array elements separated by commas, consuming the
closing bracket. -/
def pElems : Nat → List Char → Option (JArr × List Char)
  | 0, _ => none
  | fuel + 1, cs =>
    match pVal fuel cs with
    | none => none
    | some (v, r1) =>
      match skipWs r1 with
      | c :: r2 =>
        if c = commaChar then (pElems fuel r2).map (fun p => (JArr.cons v p.1, p.2))
        else if c = rbrackChar then some (JArr.cons v .nil, r2)
        else none
      | [] => none

end

/-- Model of `JSON.parse`: parse one value, then require only whitespace to
remain; `none` models the thrown `SyntaxError`. -/
def jsonParse (s : String) : Option JValue :=
  match pVal (s.data.length + 1) s.data with
  | some (v, rest) => if (skipWs rest).isEmpty then some v else none
  | none => none

/-! ### The `keygrip` package

`sign` and `verify` over a keyring, parameterised by the HMAC-SHA256
primitive (`node:crypto`); `keygrip` post-processes the base64 digest into
the URL-safe alphabet, so the primitive is modelled at the level of the
final 43-character signature string. -/

/-- The HMAC primitive: key, then payload, to signature string. -/
def Mac : Type := String → String → String

/-- `keygrip.sign`: always signs with the first key of the keyring. -/
def keygripSign (mac : Mac) (keys : List String) (data : String) : String :=
  mac (keys.headD "") data

/-- `keygrip.verify`: accepts a signature produced by any key of the
keyring. -/
def keygripVerify (mac : Mac) (keys : List String) (data sig : String) : Bool :=
  keys.any (fun k => mac k data == sig)

/-! ### Environment and configuration resolution -/

/-- The environment variables the library reads (`process.env`); `none`
models an unset variable. -/
structure Env where
  secret : Option String
  name : Option String
  httpOnly : Option String
  secure : Option String
  sameSite : Option String
  maxAgeSpan : Option String
  domain : Option String
  path : Option String

/-- Default session cookie name. -/
def SESSION_COOKIE_NAME_DEFAULT : String := "session"

/-- Default Max-Age (7 days in seconds). -/
def SESSION_COOKIE_MAX_AGE_SPAN_DEFAULT : Nat := 60 * 60 * 24 * 7

/-- Signature length in characters. -/
def SIGNATURE_DIGEST_LENGTH : Nat := 43

/-- The character class of the cookie-name regular expression in
`getCookieName`: ASCII letters, digits, and the RFC 6265 token punctuation. -/
def isCookieTokenChar (c : Char) : Bool :=
  let n := c.toNat
  (65 ≤ n && n ≤ 90) || (97 ≤ n && n ≤ 122) || (48 ≤ n && n ≤ 57) ||
    (n == 33) || (n == 35) || (n == 36) || (n == 37) || (n == 38) || (n == 39) ||
    (n == 42) || (n == 43) || (n == 45) || (n == 46) || (n == 94) || (n == 95) ||
    (n == 96) || (n == 124) || (n == 126)

/-- First maximal run of token characters (the first match of the global
regular expression), `none` when no token character occurs. -/
def firstTokenRun (cs : List Char) : Option (List Char) :=
  match cs.dropWhile (fun c => !isCookieTokenChar c) with
  | [] => none
  | c :: rest => some ((c :: rest).takeWhile isCookieTokenChar)

/-- Model of `getCookieName`.  Note the source's `!check instanceof Array`
binds as `(!check) instanceof Array` and is always false, so when the
regular expression matches nothing (`check` is `null`) the subsequent
`check[0]` access itself throws a `TypeError`. -/
def getCookieName (env : Env) : Except String String :=
  match env.name with
  | none => .ok SESSION_COOKIE_NAME_DEFAULT
  | some n =>
    let check := firstTokenRun n.data
    if n.length < 1 then
      .error ("\"SESSION_COOKIE_NAME\" cannot be an empty string.")
    else
      match check with
      | none => .error ("TypeError: Cannot read properties of null (reading 0)")
      | some r =>
        if r ≠ n.data then
          .error ("\"SESSION_COOKIE_NAME\" must only contain ASCII characters and no whitespace.")
        else .ok n

/-- Model of `getSecretKey`.  The source's `!secret instanceof String`
also binds as `(!secret) instanceof String` and is always false, so the
guard reduces to JavaScript falsiness of the variable (unset or empty). -/
def getSecretKey (env : Env) : Except String String :=
  match env.secret with
  | none => .error ("\"SESSION_COOKIE_SECRET\": No secret key provided.")
  | some s =>
    if s = "" then .error ("\"SESSION_COOKIE_SECRET\": No secret key provided.")
    else if (utf8Encode s).length < 32 then
      .error ("\"SESSION_COOKIE_SECRET\": The secret key must be at least 32 bytes long (" ++
        String.mk (natDec (utf8Encode s).length) ++ " given).")
    else .ok s

/-- Hex digit run value. -/
def hexDigitsVal (ds : List Char) : Nat :=
  ds.foldl (fun acc c => acc * 16 + (hexVal c).getD 0) 0

/-- Model of JavaScript `parseInt(x)` with no radix argument: trim, optional
sign, `0x` hex prefix, longest digit prefix; `none` models `NaN`. -/
def jsParseInt (s : Option String) : Option Int :=
  match s with
  | none => none
  | some s =>
    let cs := s.data.dropWhile isJsWs
    let (sign, cs) : Int × List Char :=
      match cs with
      | c :: rest =>
        if c = minusChar then (-1, rest)
        else if c = Char.ofNat 43 then (1, rest)
        else (1, c :: rest)
      | [] => (1, [])
    match cs with
    | z :: x :: rest =>
      if z = Char.ofNat 48 ∧ (x = Char.ofNat 120 ∨ x = Char.ofNat 88) then
        let hs := rest.takeWhile (fun c => (hexVal c).isSome)
        if hs.isEmpty then none else some (sign * (hexDigitsVal hs : Int))
      else
        let ds := (z :: x :: rest).takeWhile isDigit10
        if ds.isEmpty then none else some (sign * (digitsVal ds : Int))
    | _ =>
      let ds := cs.takeWhile isDigit10
      if ds.isEmpty then none else some (sign * (digitsVal ds : Int))

/-- ASCII lower-casing (the values it is applied to are ASCII literals). -/
def asciiLower (s : String) : String :=
  String.mk (s.data.map (fun c =>
    if 65 ≤ c.toNat ∧ c.toNat ≤ 90 then Char.ofNat (c.toNat + 32) else c))

/-- Model of `getCookieOptions`: defaults plus environment overrides.  The
`SameSite` override is matched case-sensitively against the literals
`Strict`, `Lax`, `None` and stored lower-cased; anything else keeps the
default `lax`. -/
def getCookieOptions (env : Env) : CookieOptions :=
  { httpOnly := !(env.httpOnly == some "0")
    secure := !(env.secure == some "0")
    sameSite :=
      match env.sameSite with
      | some v => if v = "Strict" ∨ v = "Lax" ∨ v = "None" then asciiLower v else "lax"
      | none => "lax"
    maxAge := (jsParseInt env.maxAgeSpan).getD (SESSION_COOKIE_MAX_AGE_SPAN_DEFAULT : Int)
    domain :=
      match env.domain with
      | some d => if d ≠ "" then some d else none
      | none => none
    path :=
      match env.path with
      | some p => if p ≠ "" then p else "/"
      | none => "/" }

/-! ### Session container, request context, heap -/

/-- Heap of JavaScript objects reachable as session containers; an address
is an index.  Reference identity of a container is its address. -/
abbrev Heap := List JObj

/-- `context.clientContext`; `sessionCookieData` holds the address of the
session container once initialised. -/
structure ClientContext where
  sessionCookieData : Option Nat

/-- The Lambda `context` argument; `clientContext` may be absent
(`undefined`), in which case the property access in `getSession` throws. -/
structure Context where
  clientContext : Option ClientContext

/-- Read a heap cell. -/
def heapGet (h : Heap) (a : Nat) : JObj := h.getD a .nil

/-- Write a heap cell. -/
def heapSet (h : Heap) (a : Nat) (v : JObj) : Heap := h.set a v

/-- Model of `getSession`: return the address stored in
`context.clientContext.sessionCookieData`, allocating a fresh empty
container on first access. -/
def getSession (ctx : Context) (h : Heap) : Except String (Nat × Context × Heap) :=
  match ctx.clientContext with
  | none => .error ("TypeError: Cannot read properties of undefined (reading sessionCookieData)")
  | some cc =>
    match cc.sessionCookieData with
    | some a => .ok (a, ctx, h)
    | none => .ok (h.length, ⟨some ⟨some h.length⟩⟩, h ++ [JObj.nil])

/-- Model of `clearSession`: delete every key of the container in place
(the address, and the handle stored in the context, are unchanged). -/
def clearSession (ctx : Context) (h : Heap) : Except String (Context × Heap) :=
  match getSession ctx h with
  | .error e => .error e
  | .ok (a, ctx', h') => .ok (ctx', heapSet h' a .nil)

/-! ### The wrapper -/

/-- Lambda event: only `multiValueHeaders` is consumed by the wrapper. -/
structure LEvent where
  multiValueHeaders : Option (List (String × List String))

/-- Handler response: a single-valued `headers` object and a multi-valued
`multiValueHeaders` object, both optional. -/
structure LResponse where
  headers : Option (List (String × String))
  multiValueHeaders : Option (List (String × List String))

/-- A wrapped handler: reads the event and context, may mutate the heap
(session data), and returns a response; errors model thrown exceptions. -/
def Handler : Type :=
  LEvent → Context → Heap → Except String (Heap × LResponse)

/-- Lines 142–147 of the source: take `multiValueHeaders.Cookie` if present,
then let `multiValueHeaders.cookie` override it. -/
def getIncomingCookies (event : LEvent) : Option (List String) :=
  match event.multiValueHeaders with
  | none => none
  | some mvh =>
    match objGet mvh "cookie" with
    | some l => some l
    | none => objGet mvh "Cookie"

/-- Pairs with stringified indices. -/
def enumIdx {α : Type} (l : List α) : List (Nat × α) :=
  (List.range l.length).zip l

/-- Model of `Object.entries` on a parsed JSON value: objects yield their
members, arrays and strings yield index-keyed entries, primitives yield
nothing. -/
def jsEntries : JValue → List (String × JValue)
  | .jobj o => o.toPairs
  | .jarr a => (enumIdx a.toList).map (fun p => (String.mk (natDec p.1), p.2))
  | .jstr s => (enumIdx s.data).map (fun p => (String.mk (natDec p.1), JValue.jstr (String.mk [p.2])))
  | _ => []

/-- Key-by-key assignment of entries into the existing container. -/
def jsAssignEntries (o : JObj) (entries : List (String × JValue)) : JObj :=
  entries.foldl (fun o p => o.set p.1 p.2) o

/-- Lines 155–173 of the source, given the raw cookie value: split at the
43-character boundary, base64-decode the payload, verify, and on success
JSON-parse the payload (which throws on invalid JSON) and merge its entries
into the existing container; on verification failure leave the container
unchanged. -/
def readSessionData (mac : Mac) (keys : List String) (cookieVal : String) (sess : JObj) :
    Except String JObj :=
  let signature := String.mk (cookieVal.data.take SIGNATURE_DIGEST_LENGTH)
  let data := b64DecodeStr (String.mk (cookieVal.data.drop SIGNATURE_DIGEST_LENGTH))
  if keygripVerify mac keys data signature then
    match jsonParse data with
    | none => .error ("SyntaxError: Unexpected token in JSON at position 0")
    | some j => .ok (jsAssignEntries sess (jsEntries j))
  else .ok sess

/-- Lines 184–197 of the source: ensure `multiValueHeaders['Set-Cookie']`
exists, then migrate a truthy single-valued `headers['Set-Cookie']` to the
end of the multi-valued collection and delete the single-valued field. -/
def mergeSetCookie (r : LResponse) : LResponse :=
  let mvh0 := r.multiValueHeaders.getD []
  let mvh :=
    match objGet mvh0 "Set-Cookie" with
    | none => objSet mvh0 "Set-Cookie" []
    | some _ => mvh0
  match r.headers with
  | none => { headers := none, multiValueHeaders := some mvh }
  | some hs =>
    match objGet hs "Set-Cookie" with
    | some v =>
      if v ≠ "" then
        { headers := some (objDelete hs "Set-Cookie")
          multiValueHeaders :=
            some (objSet mvh "Set-Cookie" ((objGet mvh "Set-Cookie").getD [] ++ [v])) }
      else { headers := some hs, multiValueHeaders := some mvh }
    | none => { headers := some hs, multiValueHeaders := some mvh }

/-- The cookie-parsing phase of the wrapper (step [1] of the source):
resolve the inbound cookies and, when the session cookie is present and
truthy, run `readSessionData` on it. -/
def wrapperParsePhase (mac : Mac) (keys : List String) (cookieName : String)
    (event : LEvent) (addr : Nat) (h : Heap) : Except String Heap :=
  match getIncomingCookies event with
  | none => .ok h
  | some [] => .error ("TypeError: argument str must be a string")
  | some (v :: _) =>
    let pc := cookieParse v
    match objGet pc cookieName with
    | none => .ok h
    | some raw =>
      if raw ≠ "" then
        match readSessionData mac keys raw (heapGet h addr) with
        | .error e => .error e
        | .ok sess => .ok (heapSet h addr sess)
      else .ok h

/-- Model of `sessionWrapper`: resolve configuration, obtain the session
container, parse and verify the inbound cookie, run the handler, merge
`Set-Cookie` headers, and append the freshly signed session cookie as the
last entry of the multi-valued collection. -/
def sessionWrapper (mac : Mac) (env : Env) (handler : Handler) (event : LEvent)
    (ctx : Context) (h : Heap) : Except String (Heap × LResponse) :=
  match getCookieName env with
  | .error e => .error e
  | .ok cookieName =>
    match getSecretKey env with
    | .error e => .error e
    | .ok secret =>
      let keys := [secret]
      match getSession ctx h with
      | .error e => .error e
      | .ok (addr, ctx, h) =>
        match wrapperParsePhase mac keys cookieName event addr h with
        | .error e => .error e
        | .ok h =>
          match handler event ctx h with
          | .error e => .error e
          | .ok (h, response0) =>
            let response := mergeSetCookie response0
            let sessionAsJSON := jsonStringify (heapGet h addr)
            let cookieValue :=
              keygripSign mac keys sessionAsJSON ++ b64EncodeStr sessionAsJSON
            match cookieSerialize cookieName cookieValue (getCookieOptions env) with
            | .error e => .error e
            | .ok serialized =>
              let mvh := response.multiValueHeaders.getD []
              let mvh :=
                objSet mvh "Set-Cookie" ((objGet mvh "Set-Cookie").getD [] ++ [serialized])
              .ok (h, { headers := response.headers, multiValueHeaders := some mvh })

/-! ### UTF-8 round trip -/

/-- Unicode scalar value bounds of a `Char`. -/
theorem char_toNat_valid (c : Char) :
    c.toNat < 0xD800 ∨ (0xDFFF < c.toNat ∧ c.toNat < 0x110000) := by
  rcases c.valid with h | h
  · left; exact_mod_cast h
  · right; exact ⟨by exact_mod_cast h.1, by exact_mod_cast h.2⟩

/-- Every UTF-8 sequence is non-empty. -/
theorem utf8EncodeCP_length_pos (m : Nat) : 0 < (utf8EncodeCP m).length := by
  unfold utf8EncodeCP
  split <;> try simp
  split <;> try simp
  split <;> simp

/-- UTF-8 bytes are bytes. -/
theorem utf8EncodeCP_lt_256 (m : Nat) (hm : m < 0x110000) :
    ∀ b ∈ utf8EncodeCP m, b < 256 := by
  intro b hb
  unfold utf8EncodeCP at hb
  split at hb
  · simp at hb; omega
  · split at hb
    · simp at hb; rcases hb with h | h <;> omega
    · split at hb
      · simp at hb; rcases hb with h | h | h <;> omega
      · simp at hb; rcases hb with h | h | h | h <;> omega

/-- Decoding one sequence undoes encoding one character. -/
theorem utf8Dec1_encode (c : Char) (rest : List Nat) :
    utf8Dec1 (utf8EncodeCP c.toNat ++ rest) = some (c, rest) := by
  have hv := char_toNat_valid c
  have hofn := Char.ofNat_toNat c
  by_cases h1 : c.toNat < 0x80
  · rw [utf8EncodeCP, if_pos h1]
    simp only [List.cons_append, List.nil_append, utf8Dec1]
    rw [if_pos h1, hofn]
  · by_cases h2 : c.toNat < 0x800
    · rw [utf8EncodeCP, if_neg h1, if_pos h2]
      simp only [List.cons_append, List.nil_append, utf8Dec1]
      rw [if_neg (by omega), if_pos (by omega), if_pos (by omega)]
      have hval : (0xC0 + c.toNat / 64 - 0xC0) * 64 + (0x80 + c.toNat % 64 - 0x80) = c.toNat := by
        omega
      rw [hval, hofn]
    · by_cases h3 : c.toNat < 0x10000
      · rw [utf8EncodeCP, if_neg h1, if_neg h2, if_pos h3]
        simp only [List.cons_append, List.nil_append, utf8Dec1]
        rw [if_neg (by omega), if_neg (by omega), if_pos (by omega), if_pos (by omega),
          if_pos (by omega)]
        have hval : (0xE0 + c.toNat / 4096 - 0xE0) * 4096 + (0x80 + c.toNat / 64 % 64 - 0x80) * 64 +
            (0x80 + c.toNat % 64 - 0x80) = c.toNat := by omega
        rw [hval, hofn]
      · rw [utf8EncodeCP, if_neg h1, if_neg h2, if_neg h3]
        simp only [List.cons_append, List.nil_append, utf8Dec1]
        rw [if_neg (by omega), if_neg (by omega), if_neg (by omega), if_pos (by omega),
          if_pos (by omega), if_pos (by omega)]
        have hval : (0xF0 + c.toNat / 262144 - 0xF0) * 262144 +
            (0x80 + c.toNat / 4096 % 64 - 0x80) * 4096 +
            (0x80 + c.toNat / 64 % 64 - 0x80) * 64 + (0x80 + c.toNat % 64 - 0x80) = c.toNat := by
          omega
        rw [hval, hofn]

/-- One decoding step of the lossy loop. -/
theorem utf8DecodeLoop_step (fuel b : Nat) (rest : List Nat) (c : Char) (r : List Nat)
    (h : utf8Dec1 (b :: rest) = some (c, r)) :
    utf8DecodeLoop (fuel + 1) (b :: rest) = c :: utf8DecodeLoop fuel r := by
  rw [utf8DecodeLoop, h]

/-- One decoding step of the strict loop. -/
theorem utf8DecodeStrictLoop_step (fuel b : Nat) (rest : List Nat) (c : Char) (r : List Nat)
    (h : utf8Dec1 (b :: rest) = some (c, r)) :
    utf8DecodeStrictLoop (fuel + 1) (b :: rest) =
      (utf8DecodeStrictLoop fuel r).map (fun cs => c :: cs) := by
  rw [utf8DecodeStrictLoop, h]

/-- Lossy decoding undoes encoding (with sufficient fuel). -/
theorem utf8DecodeLoop_encode (cs : List Char) : ∀ fuel,
    (cs.flatMap (fun c => utf8EncodeCP c.toNat)).length ≤ fuel →
    utf8DecodeLoop fuel (cs.flatMap (fun c => utf8EncodeCP c.toNat)) = cs := by
  induction cs with
  | nil => intro fuel _; cases fuel <;> rfl
  | cons c cs ih =>
    intro fuel hfuel
    simp only [List.flatMap_cons] at hfuel ⊢
    have hpos := utf8EncodeCP_length_pos c.toNat
    cases fuel with
    | zero => simp only [List.length_append, Nat.le_zero] at hfuel; omega
    | succ f =>
      rcases henc : utf8EncodeCP c.toNat with _ | ⟨b, t⟩
      · rw [henc] at hpos; simp at hpos
      · have hdec := utf8Dec1_encode c (cs.flatMap (fun c => utf8EncodeCP c.toNat))
        rw [henc] at hdec
        simp only [List.cons_append] at hdec ⊢
        rw [utf8DecodeLoop_step f b _ c _ hdec]
        rw [henc] at hfuel
        simp only [List.length_append, List.length_cons] at hfuel
        rw [ih f (by omega)]

/-- Node's lossy UTF-8 decoding undoes UTF-8 encoding. -/
theorem utf8Decode_encode (s : String) : utf8Decode (utf8Encode s) = s := by
  obtain ⟨data⟩ := s
  unfold utf8Decode utf8Encode
  rw [utf8DecodeLoop_encode data _ (le_refl _)]

/-- Strict decoding undoes encoding (with sufficient fuel). -/
theorem utf8DecodeStrictLoop_encode (cs : List Char) : ∀ fuel,
    (cs.flatMap (fun c => utf8EncodeCP c.toNat)).length ≤ fuel →
    utf8DecodeStrictLoop fuel (cs.flatMap (fun c => utf8EncodeCP c.toNat)) = some cs := by
  induction cs with
  | nil => intro fuel _; cases fuel <;> rfl
  | cons c cs ih =>
    intro fuel hfuel
    simp only [List.flatMap_cons] at hfuel ⊢
    have hpos := utf8EncodeCP_length_pos c.toNat
    cases fuel with
    | zero => simp only [List.length_append, Nat.le_zero] at hfuel; omega
    | succ f =>
      rcases henc : utf8EncodeCP c.toNat with _ | ⟨b, t⟩
      · rw [henc] at hpos; simp at hpos
      · have hdec := utf8Dec1_encode c (cs.flatMap (fun c => utf8EncodeCP c.toNat))
        rw [henc] at hdec
        simp only [List.cons_append] at hdec ⊢
        rw [utf8DecodeStrictLoop_step f b _ c _ hdec]
        rw [henc] at hfuel
        simp only [List.length_append, List.length_cons] at hfuel
        rw [ih f (by omega)]
        rfl

/-- Strict UTF-8 decoding undoes UTF-8 encoding. -/
theorem utf8DecodeStrict_encode (s : String) :
    utf8DecodeStrict (utf8Encode s) = some s := by
  obtain ⟨data⟩ := s
  unfold utf8DecodeStrict utf8Encode
  rw [utf8DecodeStrictLoop_encode data _ (le_refl _)]
  rfl

/-! ### Base64 round trip -/

/-- The alphabet table and its inverse agree on sextets. -/
theorem b64Val_b64Char : ∀ n < 64, b64Val (b64Char n) = some n := by decide

/-- Padding is skipped by the decoder. -/
theorem b64Val_eqSign : b64Val eqSignChar = none := by decide

/-- Base64 decoding undoes encoding on byte lists. -/
theorem b64Decode_encode : ∀ (n : Nat) (bs : List Nat), bs.length ≤ n →
    (∀ b ∈ bs, b < 256) → b64Decode (b64EncodeBytes bs) = bs := by
  intro n
  induction n with
  | zero =>
    intro bs hlen _
    have : bs = [] := List.eq_nil_of_length_eq_zero (Nat.le_zero.mp hlen)
    subst this; rfl
  | succ n ih =>
    intro bs hlen hb
    match bs with
    | [] => rfl
    | [a] =>
      have ha : a < 256 := hb a (by simp)
      unfold b64Decode b64EncodeBytes
      rw [List.filterMap_cons_some (b64Val_b64Char (a / 4) (by omega)),
        List.filterMap_cons_some (b64Val_b64Char (a % 4 * 16) (by omega)),
        List.filterMap_cons_none b64Val_eqSign, List.filterMap_cons_none b64Val_eqSign,
        List.filterMap_nil]
      show b64Regroup [a / 4, a % 4 * 16] = [a]
      unfold b64Regroup
      have h1 : a / 4 * 4 + a % 4 * 16 / 16 = a := by omega
      rw [h1]
    | [a, b] =>
      have ha : a < 256 := hb a (by simp)
      have hbb : b < 256 := hb b (by simp)
      unfold b64Decode b64EncodeBytes
      rw [List.filterMap_cons_some (b64Val_b64Char (a / 4) (by omega)),
        List.filterMap_cons_some (b64Val_b64Char (a % 4 * 16 + b / 16) (by omega)),
        List.filterMap_cons_some (b64Val_b64Char (b % 16 * 4) (by omega)),
        List.filterMap_cons_none b64Val_eqSign, List.filterMap_nil]
      show b64Regroup [a / 4, a % 4 * 16 + b / 16, b % 16 * 4] = [a, b]
      unfold b64Regroup
      have h1 : a / 4 * 4 + (a % 4 * 16 + b / 16) / 16 = a := by omega
      have h2 : (a % 4 * 16 + b / 16) % 16 * 16 + b % 16 * 4 / 4 = b := by omega
      rw [h1, h2]
    | [a, b, c] =>
      have ha : a < 256 := hb a (by simp)
      have hbb : b < 256 := hb b (by simp)
      have hc : c < 256 := hb c (by simp)
      unfold b64Decode
      rw [show b64EncodeBytes [a, b, c] =
        b64Char (a / 4) :: b64Char (a % 4 * 16 + b / 16) :: b64Char (b % 16 * 4 + c / 64) ::
          b64Char (c % 64) :: b64EncodeBytes [] from rfl]
      rw [List.filterMap_cons_some (b64Val_b64Char (a / 4) (by omega)),
        List.filterMap_cons_some (b64Val_b64Char (a % 4 * 16 + b / 16) (by omega)),
        List.filterMap_cons_some (b64Val_b64Char (b % 16 * 4 + c / 64) (by omega)),
        List.filterMap_cons_some (b64Val_b64Char (c % 64) (by omega))]
      show b64Regroup [a / 4, a % 4 * 16 + b / 16, b % 16 * 4 + c / 64, c % 64] = [a, b, c]
      rw [b64Regroup]
      have h1 : a / 4 * 4 + (a % 4 * 16 + b / 16) / 16 = a := by omega
      have h2 : (a % 4 * 16 + b / 16) % 16 * 16 + (b % 16 * 4 + c / 64) / 4 = b := by omega
      have h3 : (b % 16 * 4 + c / 64) % 4 * 64 + c % 64 = c := by omega
      rw [h1, h2, h3]
      rfl
    | a :: b :: c :: d :: rest =>
      have ha : a < 256 := hb a (by simp)
      have hbb : b < 256 := hb b (by simp)
      have hc : c < 256 := hb c (by simp)
      have hrest : ∀ x ∈ d :: rest, x < 256 := fun x hx => hb x (by simp at hx ⊢; tauto)
      have hrlen : (d :: rest).length ≤ n := by simp at hlen ⊢; omega
      have ihr := ih (d :: rest) hrlen hrest
      unfold b64Decode at ihr ⊢
      show b64Regroup (List.filterMap b64Val (b64EncodeBytes (a :: b :: c :: d :: rest))) =
        a :: b :: c :: d :: rest
      rw [show b64EncodeBytes (a :: b :: c :: d :: rest) =
        b64Char (a / 4) :: b64Char (a % 4 * 16 + b / 16) :: b64Char (b % 16 * 4 + c / 64) ::
          b64Char (c % 64) :: b64EncodeBytes (d :: rest) from rfl]
      rw [List.filterMap_cons_some (b64Val_b64Char (a / 4) (by omega)),
        List.filterMap_cons_some (b64Val_b64Char (a % 4 * 16 + b / 16) (by omega)),
        List.filterMap_cons_some (b64Val_b64Char (b % 16 * 4 + c / 64) (by omega)),
        List.filterMap_cons_some (b64Val_b64Char (c % 64) (by omega))]
      rw [b64Regroup]
      have h1 : a / 4 * 4 + (a % 4 * 16 + b / 16) / 16 = a := by omega
      have h2 : (a % 4 * 16 + b / 16) % 16 * 16 + (b % 16 * 4 + c / 64) / 4 = b := by omega
      have h3 : (b % 16 * 4 + c / 64) % 4 * 64 + c % 64 = c := by omega
      rw [h1, h2, h3, ihr]

/-! ### Decimal numerals: helper lemmas and parse round trip -/

/-- `Char.ofNat` below the surrogate range keeps its code point. -/
theorem charToNat_ofNat_small (n : Nat) (h : n < 0xD800) : (Char.ofNat n).toNat = n := by
  unfold Char.ofNat
  split
  · rfl
  · next hnv => exact absurd (Or.inl h) hnv

/-- `takeWhile` cuts exactly at a satisfied prefix and a failing head. -/
theorem takeWhile_append_cut (p : Char → Bool) (l1 l2 : List Char)
    (h1 : ∀ c ∈ l1, p c = true) (h2 : ∀ c, l2.head? = some c → p c = false) :
    (l1 ++ l2).takeWhile p = l1 := by
  induction l1 with
  | nil =>
    cases l2 with
    | nil => rfl
    | cons c t => simp [List.takeWhile_cons, h2 c rfl]
  | cons c t ih =>
    simp only [List.cons_append, List.takeWhile_cons, h1 c (by simp), if_true]
    rw [ih (fun x hx => h1 x (by simp [hx]))]

/-- `dropWhile` counterpart of `takeWhile_append_cut`. -/
theorem dropWhile_append_cut (p : Char → Bool) (l1 l2 : List Char)
    (h1 : ∀ c ∈ l1, p c = true) (h2 : ∀ c, l2.head? = some c → p c = false) :
    (l1 ++ l2).dropWhile p = l2 := by
  induction l1 with
  | nil =>
    cases l2 with
    | nil => rfl
    | cons c t => simp [List.dropWhile_cons, h2 c rfl]
  | cons c t ih =>
    simp only [List.cons_append, List.dropWhile_cons, h1 c (by simp), if_true]
    rw [ih (fun x hx => h1 x (by simp [hx]))]

/-- The printer's accumulator is an append. -/
theorem natDecGo_acc : ∀ (f n : Nat) (acc : List Char),
    natDecGo f n acc = natDecGo f n [] ++ acc := by
  intro f
  induction f with
  | zero => intro n acc; rfl
  | succ f ih =>
    intro n acc
    by_cases h : n < 10
    · rw [natDecGo, natDecGo, if_pos h, if_pos h]; rfl
    · rw [natDecGo, natDecGo, if_neg h, if_neg h, ih (n / 10), ih (n / 10) [digitChar10 (n % 10)]]
      simp

/-- Fuel irrelevance for the printer. -/
theorem natDecGo_fuel (n : Nat) : ∀ (f f' : Nat), n < f → n < f' →
    natDecGo f n [] = natDecGo f' n [] := by
  induction n using Nat.strong_induction_on with
  | _ n ih =>
    intro f f' hf hf'
    match f, f' with
    | f + 1, f' + 1 =>
      by_cases h : n < 10
      · rw [natDecGo, natDecGo, if_pos h, if_pos h]
      · rw [natDecGo, natDecGo, if_neg h, if_neg h,
          natDecGo_acc f, natDecGo_acc f',
          ih (n / 10) (by omega) f f' (by omega) (by omega)]

/-- One step of the printer for two or more digits. -/
theorem natDec_step (n : Nat) (h : 10 ≤ n) :
    natDec n = natDec (n / 10) ++ [digitChar10 (n % 10)] := by
  rw [natDec, natDec, natDecGo, if_neg (by omega), natDecGo_acc,
    natDecGo_fuel (n / 10) n (n / 10 + 1) (by omega) (by omega)]

/-- Single-digit printing. -/
theorem natDec_small (n : Nat) (h : n < 10) : natDec n = [digitChar10 n] := by
  rw [natDec, natDecGo, if_pos h]

/-- Printed numerals consist of digits. -/
theorem natDec_all_digits (n : Nat) : ∀ c ∈ natDec n, isDigit10 c = true := by
  induction n using Nat.strong_induction_on with
  | _ n ih =>
    by_cases h : n < 10
    · rw [natDec_small n h]
      intro c hc
      simp at hc
      subst hc
      simp [isDigit10, digitChar10, charToNat_ofNat_small (48 + n) (by omega)]
      omega
    · rw [natDec_step n (by omega)]
      intro c hc
      rcases List.mem_append.mp hc with hc | hc
      · exact ih (n / 10) (by omega) c hc
      · simp at hc
        subst hc
        simp [isDigit10, digitChar10, charToNat_ofNat_small (48 + n % 10) (by omega)]
        omega

/-- Printed numerals are non-empty. -/
theorem natDec_ne_nil (n : Nat) : natDec n ≠ [] := by
  by_cases h : n < 10
  · rw [natDec_small n h]; simp
  · rw [natDec_step n (by omega)]; simp

/-- `digitsVal` folds over an appended digit. -/
theorem digitsVal_append_digit (xs : List Char) (d : Char) :
    digitsVal (xs ++ [d]) = 10 * digitsVal xs + (d.toNat - 48) := by
  unfold digitsVal
  rw [List.foldl_append]
  simp [Nat.mul_comm]

/-- The printed numeral evaluates back to the number. -/
theorem digitsVal_natDec (n : Nat) : digitsVal (natDec n) = n := by
  induction n using Nat.strong_induction_on with
  | _ n ih =>
    by_cases h : n < 10
    · rw [natDec_small n h]
      simp [digitsVal, digitChar10, charToNat_ofNat_small (48 + n) (by omega)]
    · rw [natDec_step n (by omega), digitsVal_append_digit, ih (n / 10) (by omega),
        digitChar10, charToNat_ofNat_small (48 + n % 10) (by omega)]
      omega

/-- A positive number is not printed with a leading zero. -/
theorem natDec_head_ne_zero (n : Nat) (hn : 1 ≤ n) :
    ∀ c, (natDec n).head? = some c → c.toNat ≠ 48 := by
  induction n using Nat.strong_induction_on with
  | _ n ih =>
    intro c hc
    by_cases h : n < 10
    · rw [natDec_small n h] at hc
      simp at hc
      subst hc
      rw [digitChar10, charToNat_ofNat_small (48 + n) (by omega)]
      omega
    · rw [natDec_step n (by omega),
        List.head?_append_of_ne_nil _ (natDec_ne_nil (n / 10))] at hc
      exact ih (n / 10) (by omega) (by omega) c hc

/-- A list with no digit at its head (or empty). -/
def noLeadingDigit (cs : List Char) : Prop :=
  ∀ c, cs.head? = some c → isDigit10 c = false

/-- Parsing an unsigned numeral printed by `natDec`. -/
theorem pNat_natDec (n : Nat) (rest : List Char) (hrest : noLeadingDigit rest) :
    pNat (natDec n ++ rest) = some (n, rest) := by
  unfold pNat
  rw [takeWhile_append_cut isDigit10 (natDec n) rest (natDec_all_digits n) hrest]
  rw [if_neg (by simp [natDec_ne_nil n])]
  have hlz : ¬((natDec n).head? = some (Char.ofNat 48) ∧ (natDec n).length ≠ 1) := by
    by_cases h : n < 10
    · rw [natDec_small n h]; simp
    · rintro ⟨hh, _⟩
      have := natDec_head_ne_zero n (by omega) _ hh
      exact this (charToNat_ofNat_small 48 (by omega))
  rw [if_neg hlz, digitsVal_natDec, List.drop_left]

/-- `pInt` on a non-minus head delegates to `pNat`. -/
theorem pInt_cons_not_minus (c : Char) (l : List Char) (h : ¬(c = minusChar)) :
    pInt (c :: l) = (pNat (c :: l)).map (fun p => ((p.1 : Int), p.2)) := by
  rw [pInt, if_neg h]

/-- `pInt` on a minus head negates the `pNat` result. -/
theorem pInt_cons_minus (l : List Char) :
    pInt (minusChar :: l) = (pNat l).map (fun p => (-(p.1 : Int), p.2)) := by
  rw [pInt, if_pos rfl]

/-- Parsing a signed numeral printed by `intDecChars`. -/
theorem pInt_intDec (i : Int) (rest : List Char) (hrest : noLeadingDigit rest) :
    pInt (intDecChars i ++ rest) = some (i, rest) := by
  by_cases hi : i < 0
  · rw [intDecChars, if_pos hi]
    simp only [List.cons_append]
    rw [pInt_cons_minus, pNat_natDec i.natAbs rest hrest]
    have habs : ((i.natAbs : Nat) : Int) = -i := Int.ofNat_natAbs_of_nonpos (by omega)
    simp [habs]
  · rw [intDecChars, if_neg hi]
    rcases hd : natDec i.natAbs with _ | ⟨c, t⟩
    · exact absurd hd (natDec_ne_nil _)
    · have hcdig : isDigit10 c = true := by
        apply natDec_all_digits i.natAbs
        rw [hd]; simp
      have hcne : ¬(c = minusChar) := by
        intro hc
        subst hc
        rw [isDigit10] at hcdig
        have h45 : minusChar.toNat = 45 := charToNat_ofNat_small 45 (by omega)
        simp [h45] at hcdig
      simp only [List.cons_append]
      rw [pInt_cons_not_minus c _ hcne]
      have hpn := pNat_natDec i.natAbs rest hrest
      rw [hd] at hpn
      simp only [List.cons_append] at hpn
      rw [hpn]
      have habs : ((i.natAbs : Nat) : Int) = i := Int.natAbs_of_nonneg (by omega)
      simp [habs]

/-! ### JSON string literal round trip -/

/-- Closing quote ends the string body. -/
theorem pStringBody_quoteEnd (f : Nat) (l : List Char) :
    pStringBody (f + 1) (quoteChar :: l) = some ([], l) := by
  rfl

/-- A verbatim character is consumed as itself. -/
theorem pStringBody_verbatim (f : Nat) (c : Char) (l : List Char)
    (h1 : ¬(c = quoteChar)) (h2 : ¬(c = backslashChar)) (h3 : ¬(c.toNat < 32)) :
    pStringBody (f + 1) (c :: l) = (pStringBody f l).map (fun p => (c :: p.1, p.2)) := by
  rw [pStringBody.eq_def]
  simp only []
  rw [if_neg h1, if_neg h2, if_neg h3]

/-- Hex value of the digits emitted for control characters. -/
theorem hexVal_lowDigit (m : Nat) (hm : m < 16) :
    hexVal (if m < 10 then Char.ofNat (48 + m) else Char.ofNat (87 + m)) = some m := by
  by_cases h : m < 10
  · rw [if_pos h, hexVal]
    have ht : (Char.ofNat (48 + m)).toNat = 48 + m := charToNat_ofNat_small _ (by omega)
    simp only [ht]
    rw [if_pos (by omega)]
    congr 1
    omega
  · rw [if_neg h, hexVal]
    have ht : (Char.ofNat (87 + m)).toNat = 87 + m := charToNat_ofNat_small _ (by omega)
    simp only [ht]
    rw [if_neg (by omega), if_neg (by omega), if_pos (by omega)]
    congr 1
    omega

/-- The `\u00XY` escape is parsed back through `pStringEscapeU`. -/
theorem pStringBody_bs_u (f : Nat) (d1 d2 : Char) (l : List Char) (a b : Nat) (ch : Char)
    (r : List Char) (h1 : hexVal d1 = some a) (h2 : hexVal d2 = some b)
    (h3 : pStringEscapeU (0 * 4096 + 0 * 256 + a * 16 + b) l = some (ch, r)) :
    pStringBody (f + 1)
        (backslashChar :: Char.ofNat 117 :: Char.ofNat 48 :: Char.ofNat 48 :: d1 :: d2 :: l) =
      (pStringBody f r).map (fun p => (ch :: p.1, p.2)) := by
  show (match hexVal (Char.ofNat 48), hexVal (Char.ofNat 48), hexVal d1, hexVal d2 with
    | some a, some b, some c', some d =>
      (match pStringEscapeU (a * 4096 + b * 256 + c' * 16 + d) l with
      | some (ch, r4) => (pStringBody f r4).map (fun p : List Char × List Char => (ch :: p.1, p.2))
      | none => none)
    | _, _, _, _ => none) = _
  rw [show hexVal (Char.ofNat 48) = some 0 from rfl, h1, h2]
  show (match pStringEscapeU (0 * 4096 + 0 * 256 + a * 16 + b) l with
    | some (ch, r4) => (pStringBody f r4).map (fun p : List Char × List Char => (ch :: p.1, p.2))
    | none => none) = _
  rw [h3]

/-- One escaped character is parsed back as itself, whatever it is. -/
theorem pStringBody_step (c : Char) (f : Nat) (l : List Char) :
    pStringBody (f + 1) (jsonEscapeChar c ++ l) =
      (pStringBody f l).map (fun p => (c :: p.1, p.2)) := by
  by_cases h1 : c = quoteChar
  · subst h1; rfl
  · by_cases h2 : c = backslashChar
    · subst h2; rfl
    · by_cases h3 : c.toNat = 8
      · have hc : Char.ofNat 8 = c := by rw [← h3, Char.ofNat_toNat]
        rw [← hc]; rfl
      · by_cases h4 : c.toNat = 9
        · have hc : Char.ofNat 9 = c := by rw [← h4, Char.ofNat_toNat]
          rw [← hc]; rfl
        · by_cases h5 : c.toNat = 10
          · have hc : Char.ofNat 10 = c := by rw [← h5, Char.ofNat_toNat]
            rw [← hc]; rfl
          · by_cases h6 : c.toNat = 12
            · have hc : Char.ofNat 12 = c := by rw [← h6, Char.ofNat_toNat]
              rw [← hc]; rfl
            · by_cases h7 : c.toNat = 13
              · have hc : Char.ofNat 13 = c := by rw [← h7, Char.ofNat_toNat]
                rw [← hc]; rfl
              · by_cases h8 : c.toNat < 32
                · rw [jsonEscapeChar, if_neg h1, if_neg h2, if_neg h3, if_neg h4, if_neg h5,
                    if_neg h6, if_neg h7, if_pos h8]
                  simp only [List.cons_append, List.nil_append]
                  rw [pStringBody_bs_u f _ _ l (c.toNat / 16) (c.toNat % 16) c l
                    (hexVal_lowDigit (c.toNat / 16) (by omega))
                    (hexVal_lowDigit (c.toNat % 16) (by omega)) ?_]
                  have hv : (0 : Nat) * 4096 + 0 * 256 + c.toNat / 16 * 16 + c.toNat % 16 =
                      c.toNat := by omega
                  rw [hv, pStringEscapeU.eq_def, if_neg (by omega), if_neg (by omega),
                    Char.ofNat_toNat]
                · rw [jsonEscapeChar, if_neg h1, if_neg h2, if_neg h3, if_neg h4, if_neg h5,
                    if_neg h6, if_neg h7, if_neg h8]
                  simp only [List.cons_append, List.nil_append]
                  exact pStringBody_verbatim f c l h1 h2 (by omega)

/-- Parsing the body undoes the escaping of `JSON.stringify`; the fuel bound
counts produced characters (one recursion step each). -/
theorem pStringBody_escape (cs : List Char) : ∀ (fuel : Nat) (rest : List Char),
    cs.length < fuel →
    pStringBody fuel (cs.flatMap jsonEscapeChar ++ quoteChar :: rest) = some (cs, rest) := by
  induction cs with
  | nil =>
    intro fuel rest h
    match fuel with
    | f + 1 =>
      simp only [List.flatMap_nil, List.nil_append]
      exact pStringBody_quoteEnd f rest
  | cons c cs ih =>
    intro fuel rest hfuel
    simp only [List.flatMap_cons, List.append_assoc]
    match fuel with
    | f + 1 =>
      rw [pStringBody_step c f _, ih f rest (by simp at hfuel; omega)]
      rfl

/-! ### Fuel accounting for the JSON parser -/

mutual

/-- Fuel needed by `pVal` for a value. -/
def fuelV : JValue → Nat
  | .jnull => 1
  | .jbool _ => 1
  | .jnum _ => 1
  | .jstr _ => 1
  | .jarr a => 1 + fuelA a
  | .jobj o => 1 + fuelO o

/-- Fuel needed by `pMembers` for an object tail. -/
def fuelO : JObj → Nat
  | .nil => 0
  | .cons _ v rest => 1 + max (fuelV v) (fuelO rest)

/-- Fuel needed by `pElems` for an array tail. -/
def fuelA : JArr → Nat
  | .nil => 0
  | .cons v rest => 1 + max (fuelV v) (fuelA rest)

end

/-- Values always need fuel. -/
theorem fuelV_pos (v : JValue) : 1 ≤ fuelV v := by
  cases v <;> simp [fuelV]

/-- Escapes are non-empty. -/
theorem jsonEscapeChar_length_pos (c : Char) : 0 < (jsonEscapeChar c).length := by
  unfold jsonEscapeChar
  split_ifs <;> simp

/-- A string is no longer than its escaped form. -/
theorem flatMap_escape_length_ge (cs : List Char) :
    cs.length ≤ (cs.flatMap jsonEscapeChar).length := by
  induction cs with
  | nil => simp
  | cons c cs ih =>
    simp only [List.flatMap_cons, List.length_append, List.length_cons]
    have := jsonEscapeChar_length_pos c
    omega

/-- Rendered values are non-empty. -/
theorem svVal_length_pos (v : JValue) : 1 ≤ (svVal v).length := by
  cases v with
  | jnull => simp [svVal]
  | jbool b => cases b <;> simp [svVal]
  | jnum i =>
    simp only [svVal]
    have h := natDec_ne_nil i.natAbs
    rw [intDecChars]
    split
    · simp
    · rcases hd : natDec i.natAbs with _ | _
      · exact absurd hd h
      · simp [hd]
  | jstr s => simp [svVal, jsonQuote]
  | jarr a => simp [svVal]
  | jobj o => simp [svVal]

mutual

/-- `fuelV` is bounded by the rendered length. -/
def fuelV_le : (v : JValue) → fuelV v ≤ (svVal v).length
  | .jnull => by simp [fuelV, svVal]
  | .jbool b => by cases b <;> simp [fuelV, svVal]
  | .jnum i => by
    have := svVal_length_pos (.jnum i)
    simpa [fuelV] using this
  | .jstr s => by
    have := svVal_length_pos (.jstr s)
    simpa [fuelV] using this
  | .jarr a => by
    have h := fuelA_le a
    simp only [fuelV, svVal, List.length_cons, List.length_append]
    omega
  | .jobj o => by
    have h := fuelO_le o
    simp only [fuelV, svVal, List.length_cons, List.length_append]
    omega

/-- `fuelO` is bounded by the rendered length. -/
def fuelO_le : (o : JObj) → fuelO o ≤ (svMembers o).length + 1
  | .nil => by simp [fuelO]
  | .cons k v .nil => by
    have hv := fuelV_le v
    simp only [fuelO, svMembers, List.length_append, List.length_cons]
    simp [fuelO]
    omega
  | .cons k v (.cons k2 v2 rest) => by
    have hv := fuelV_le v
    have hvp := svVal_length_pos v
    have ho := fuelO_le (.cons k2 v2 rest)
    simp only [fuelO, svMembers, List.length_append, List.length_cons] at ho ⊢
    omega

/-- `fuelA` is bounded by the rendered length. -/
def fuelA_le : (a : JArr) → fuelA a ≤ (svElems a).length + 1
  | .nil => by simp [fuelA]
  | .cons v .nil => by
    have hv := fuelV_le v
    simp only [fuelA, svElems]
    simp [fuelA]
    omega
  | .cons v (.cons v2 rest) => by
    have hv := fuelV_le v
    have hvp := svVal_length_pos v
    have ha := fuelA_le (.cons v2 rest)
    simp only [fuelA, svElems, List.length_append, List.length_cons] at ha ⊢
    omega

end

/-- `skipWs` keeps a non-whitespace head. -/
theorem skipWs_cons (c : Char) (l : List Char) (h : isJsonWs c = false) :
    skipWs (c :: l) = c :: l := by
  simp [skipWs, List.dropWhile_cons, h]

/-- Parsing a quoted literal produced by `jsonQuote`. -/
theorem pString_quote (s : String) (X : List Char) :
    pString (jsonQuote s ++ X) = some (s, X) := by
  have hsplit : jsonQuote s ++ X =
      quoteChar :: (s.data.flatMap jsonEscapeChar ++ quoteChar :: X) := by
    simp [jsonQuote]
  rw [hsplit, pString.eq_def]
  simp only [if_true]
  rw [pStringBody_escape s.data _ X ?_]
  · rfl
  · have h1 := flatMap_escape_length_ge s.data
    simp only [List.length_append, List.length_cons]
    omega

/-- The head character of a rendered value: never whitespace, a closing
bracket or brace, a comma, or a colon. -/
theorem svVal_head_facts (v : JValue) : ∀ c t, svVal v = c :: t →
    isJsonWs c = false ∧ ¬(c = rbrackChar) ∧ ¬(c = rbraceChar) ∧ ¬(c = commaChar) ∧
      ¬(c = colonChar) := by
  have hnum : ∀ (i : Int) (c : Char) (t : List Char), intDecChars i = c :: t →
      c.toNat = 45 ∨ (48 ≤ c.toNat ∧ c.toNat ≤ 57) := by
    intro i c t h
    rw [intDecChars] at h
    split at h
    · left
      have : c = minusChar := by injection h with h1 _; exact h1.symm
      subst this
      rfl
    · right
      have hc : isDigit10 c = true := by
        apply natDec_all_digits i.natAbs
        rw [h]; simp
      rw [isDigit10] at hc
      simp at hc
      omega
  intro c t h
  cases v with
  | jnull =>
    simp only [svVal] at h
    injection h with h1 _
    subst h1
    refine ⟨by decide, by decide, by decide, by decide, by decide⟩
  | jbool b =>
    cases b <;> simp only [svVal] at h <;> (injection h with h1 _; subst h1)
    · exact ⟨by decide, by decide, by decide, by decide, by decide⟩
    · exact ⟨by decide, by decide, by decide, by decide, by decide⟩
  | jnum i =>
    have hts := hnum i c t h
    refine ⟨?_, ?_, ?_, ?_, ?_⟩
    · simp [isJsonWs]
      omega
    · intro hc; subst hc; revert hts; decide
    · intro hc; subst hc; revert hts; decide
    · intro hc; subst hc; revert hts; decide
    · intro hc; subst hc; revert hts; decide
  | jstr s =>
    simp only [svVal, jsonQuote] at h
    injection h with h1 _
    subst h1
    refine ⟨by decide, by decide, by decide, by decide, by decide⟩
  | jarr a =>
    simp only [svVal] at h
    injection h with h1 _
    subst h1
    refine ⟨by decide, by decide, by decide, by decide, by decide⟩
  | jobj o =>
    simp only [svVal] at h
    injection h with h1 _
    subst h1
    refine ⟨by decide, by decide, by decide, by decide, by decide⟩

/-- A non-empty member rendering starts with a quote. -/
theorem svMembers_cons (k : String) (v : JValue) (o : JObj) : ∃ t,
    svMembers (.cons k v o) = quoteChar :: t := by
  cases o <;> simp [svMembers, jsonQuote]

/-- Rendered members of digits: a brace closes and is not a digit. -/
theorem noLeadingDigit_rbrace (rest : List Char) : noLeadingDigit (rbraceChar :: rest) := by
  intro c hc
  simp at hc
  subst hc
  decide

/-- A bracket is not a digit either. -/
theorem noLeadingDigit_rbrack (rest : List Char) : noLeadingDigit (rbrackChar :: rest) := by
  intro c hc
  simp at hc
  subst hc
  decide

/-- Neither is a comma. -/
theorem noLeadingDigit_comma (rest : List Char) : noLeadingDigit (commaChar :: rest) := by
  intro c hc
  simp at hc
  subst hc
  decide

/-- Head character class of a rendered integer. -/
theorem intDecChars_head (i : Int) (c : Char) (t : List Char) (h : intDecChars i = c :: t) :
    c.toNat = 45 ∨ (48 ≤ c.toNat ∧ c.toNat ≤ 57) := by
  rw [intDecChars] at h
  split at h
  · left
    have hc : c = minusChar := by injection h with h1 _; exact h1.symm
    subst hc
    rfl
  · right
    have hc : isDigit10 c = true := by
      apply natDec_all_digits i.natAbs
      rw [h]; simp
    rw [isDigit10] at hc
    simp at hc
    omega

/-- Member renderings split at the head of the first member. -/
theorem svElems_cons_eq (v : JValue) (a : JArr) :
    svElems (.cons v a) = svVal v ++
      (match a with | .nil => [] | .cons _ _ => commaChar :: svElems a) := by
  cases a <;> simp [svElems]

/-- Round trip of the JSON parser against the printer, by fuel induction:
parsing a rendered value (with fuel at least its `fuelV`) consumes exactly
the rendering. -/
theorem json_rt (fuel : Nat) :
    (∀ v rest, fuelV v ≤ fuel → noLeadingDigit rest →
      pVal fuel (svVal v ++ rest) = some (v, rest)) ∧
    (∀ o rest, o ≠ .nil → fuelO o ≤ fuel →
      pMembers fuel (svMembers o ++ rbraceChar :: rest) = some (o, rest)) ∧
    (∀ a rest, a ≠ .nil → fuelA a ≤ fuel →
      pElems fuel (svElems a ++ rbrackChar :: rest) = some (a, rest)) := by
  induction fuel with
  | zero =>
    refine ⟨?_, ?_, ?_⟩
    · intro v rest hf _
      have := fuelV_pos v
      omega
    · intro o rest hne hf
      cases o with
      | nil => exact absurd rfl hne
      | cons k v o' => simp [fuelO] at hf
    · intro a rest hne hf
      cases a with
      | nil => exact absurd rfl hne
      | cons v a' => simp [fuelA] at hf
  | succ f ih =>
    obtain ⟨ihP, ihQ, ihR⟩ := ih
    refine ⟨?_, ?_, ?_⟩
    · intro v rest hfv hrest
      cases v with
      | jnull => rfl
      | jbool b => cases b <;> rfl
      | jnum i =>
        rcases hd : intDecChars i with _ | ⟨c, t⟩
        · exfalso
          have := svVal_length_pos (.jnum i)
          simp only [svVal] at this
          rw [hd] at this
          simp at this
        · have hsvh : svVal (.jnum i) = c :: t := by simp only [svVal]; exact hd
          obtain ⟨hws, hbk, hbr, hcm, hcl⟩ := svVal_head_facts (.jnum i) c t hsvh
          have hts := intDecChars_head i c t hd
          have hne1 : ¬(c = quoteChar) := by intro h; subst h; revert hts; decide
          have hne2 : ¬(c = lbraceChar) := by intro h; subst h; revert hts; decide
          have hne3 : ¬(c = lbrackChar) := by intro h; subst h; revert hts; decide
          have hne4 : ¬(c = Char.ofNat 116) := by intro h; subst h; revert hts; decide
          have hne5 : ¬(c = Char.ofNat 102) := by intro h; subst h; revert hts; decide
          have hne6 : ¬(c = Char.ofNat 110) := by intro h; subst h; revert hts; decide
          rw [pVal.eq_def]
          simp only []
          have hsv : svVal (.jnum i) ++ rest = c :: (t ++ rest) := by
            rw [hsvh]; simp
          rw [hsv, skipWs_cons _ _ hws]
          simp only []
          rw [if_neg hne1, if_neg hne2, if_neg hne3, if_neg hne4, if_neg hne5, if_neg hne6]
          have hp := pInt_intDec i rest hrest
          rw [hd] at hp
          simp only [List.cons_append] at hp
          rw [hp]
          rfl
      | jstr s =>
        rw [pVal.eq_def]
        simp only []
        have hsp : svVal (.jstr s) ++ rest =
            quoteChar :: (s.data.flatMap jsonEscapeChar ++ (quoteChar :: rest)) := by
          simp [svVal, jsonQuote]
        rw [hsp, skipWs_cons _ _ (by decide)]
        simp only [if_true]
        have hq : quoteChar :: (s.data.flatMap jsonEscapeChar ++ (quoteChar :: rest)) =
            jsonQuote s ++ rest := by
          simp [jsonQuote]
        rw [hq, pString_quote]
        rfl
      | jarr a =>
        cases a with
        | nil => rfl
        | cons v' a' =>
          rw [pVal.eq_def]
          simp only []
          have hsv : svVal (.jarr (.cons v' a')) ++ rest =
              lbrackChar :: (svElems (.cons v' a') ++ (rbrackChar :: rest)) := by
            simp [svVal]
          rw [hsv, skipWs_cons _ _ (by decide)]
          simp only []
          rw [if_neg (by decide), if_neg (by decide), if_pos trivial]
          rcases hv' : svVal v' with _ | ⟨c2, t2⟩
          · exfalso
            have := svVal_length_pos v'
            rw [hv'] at this
            simp at this
          · obtain ⟨hws2, hbk2, _, _, _⟩ := svVal_head_facts v' c2 t2 hv'
            have heq : svElems (.cons v' a') ++ (rbrackChar :: rest) = c2 ::
                (t2 ++ (match a' with | .nil => [] | .cons _ _ => commaChar :: svElems a') ++
                  rbrackChar :: rest) := by
              rw [svElems_cons_eq, hv']
              cases a' <;> simp
            rw [heq, skipWs_cons _ _ hws2]
            simp only []
            rw [if_neg hbk2, ← heq]
            rw [ihR (.cons v' a') rest (by simp) (by simp [fuelV] at hfv; omega)]
            rfl
      | jobj o =>
        cases o with
        | nil => rfl
        | cons k v' o' =>
          rw [pVal.eq_def]
          simp only []
          have hsv : svVal (.jobj (.cons k v' o')) ++ rest =
              lbraceChar :: (svMembers (.cons k v' o') ++ (rbraceChar :: rest)) := by
            simp [svVal]
          rw [hsv, skipWs_cons _ _ (by decide)]
          simp only []
          rw [if_pos trivial]
          obtain ⟨t2, hmem⟩ := svMembers_cons k v' o'
          have heq : svMembers (.cons k v' o') ++ (rbraceChar :: rest) =
              quoteChar :: (t2 ++ rbraceChar :: rest) := by
            rw [hmem]; simp
          rw [heq, skipWs_cons _ _ (by decide)]
          simp only []
          rw [if_neg (by decide), ← heq]
          rw [ihQ (.cons k v' o') rest (by simp) (by simp [fuelV] at hfv; omega)]
          rfl
    · intro o rest hne hfo
      cases o with
      | nil => exact absurd rfl hne
      | cons k v o' =>
        have hfuelv : fuelV v ≤ f := by simp [fuelO] at hfo; omega
        cases o' with
        | nil =>
          rw [pMembers.eq_def]
          simp only []
          have hm : svMembers (.cons k v .nil) ++ rbraceChar :: rest =
              jsonQuote k ++ (colonChar :: (svVal v ++ rbraceChar :: rest)) := by
            simp [svMembers]
          rw [hm]
          have hq : jsonQuote k ++ (colonChar :: (svVal v ++ rbraceChar :: rest)) =
              quoteChar :: (k.data.flatMap jsonEscapeChar ++ quoteChar ::
                (colonChar :: (svVal v ++ rbraceChar :: rest))) := by
            simp [jsonQuote]
          rw [hq, skipWs_cons _ _ (by decide), ← hq, pString_quote]
          simp only []
          rw [skipWs_cons _ _ (by decide)]
          simp only [if_true]
          rw [ihP v (rbraceChar :: rest) hfuelv (noLeadingDigit_rbrace rest)]
          simp only []
          rw [skipWs_cons _ _ (by decide)]
          simp only []
          rw [if_neg (by decide), if_pos trivial]
        | cons k2 v2 o'' =>
          have hfuelo : fuelO (.cons k2 v2 o'') ≤ f := by simp [fuelO] at hfo ⊢; omega
          rw [pMembers.eq_def]
          simp only []
          have hm : svMembers (.cons k v (.cons k2 v2 o'')) ++ rbraceChar :: rest =
              jsonQuote k ++ (colonChar :: (svVal v ++ commaChar ::
                (svMembers (.cons k2 v2 o'') ++ rbraceChar :: rest))) := by
            simp [svMembers]
          rw [hm]
          have hq : jsonQuote k ++ (colonChar :: (svVal v ++ commaChar ::
              (svMembers (.cons k2 v2 o'') ++ rbraceChar :: rest))) =
              quoteChar :: (k.data.flatMap jsonEscapeChar ++ quoteChar ::
                (colonChar :: (svVal v ++ commaChar ::
                  (svMembers (.cons k2 v2 o'') ++ rbraceChar :: rest)))) := by
            simp [jsonQuote]
          rw [hq, skipWs_cons _ _ (by decide), ← hq, pString_quote]
          simp only []
          rw [skipWs_cons _ _ (by decide)]
          simp only [if_true]
          rw [ihP v (commaChar :: (svMembers (.cons k2 v2 o'') ++ rbraceChar :: rest))
            hfuelv (noLeadingDigit_comma _)]
          simp only []
          rw [skipWs_cons _ _ (by decide)]
          simp only [if_true]
          rw [ihQ (.cons k2 v2 o'') rest (by simp) hfuelo]
          rfl
    · intro a rest hne hfa
      cases a with
      | nil => exact absurd rfl hne
      | cons v a' =>
        have hfuelv : fuelV v ≤ f := by simp [fuelA] at hfa; omega
        cases a' with
        | nil =>
          rw [pElems.eq_def]
          simp only []
          have hm : svElems (.cons v .nil) ++ rbrackChar :: rest =
              svVal v ++ rbrackChar :: rest := by simp [svElems]
          rw [hm, ihP v (rbrackChar :: rest) hfuelv (noLeadingDigit_rbrack rest)]
          simp only []
          rw [skipWs_cons _ _ (by decide)]
          simp only []
          rw [if_neg (by decide), if_pos trivial]
        | cons v2 a'' =>
          have hfuela : fuelA (.cons v2 a'') ≤ f := by simp [fuelA] at hfa ⊢; omega
          rw [pElems.eq_def]
          simp only []
          have hm : svElems (.cons v (.cons v2 a'')) ++ rbrackChar :: rest =
              svVal v ++ commaChar :: (svElems (.cons v2 a'') ++ rbrackChar :: rest) := by
            simp [svElems]
          rw [hm, ihP v (commaChar :: (svElems (.cons v2 a'') ++ rbrackChar :: rest))
            hfuelv (noLeadingDigit_comma _)]
          simp only []
          rw [skipWs_cons _ _ (by decide)]
          simp only [if_true]
          rw [ihR (.cons v2 a'') rest (by simp) hfuela]
          rfl

/-- `JSON.parse` undoes `JSON.stringify` on session objects. -/
theorem jsonParse_stringify (o : JObj) :
    jsonParse (jsonStringify o) = some (.jobj o) := by
  have h := (json_rt ((svVal (.jobj o)).length + 1)).1 (.jobj o) []
    (by have := fuelV_le (.jobj o); omega)
    (by intro c hc; simp at hc)
  rw [List.append_nil] at h
  show (match pVal ((svVal (.jobj o)).length + 1) (svVal (.jobj o)) with
    | some (v, rest) => if (skipWs rest).isEmpty then some v else none
    | none => none) = some (.jobj o)
  rw [h]
  rfl

/-- Every UTF-8 byte of a string is a byte. -/
theorem utf8Encode_lt_256 (s : String) : ∀ b ∈ utf8Encode s, b < 256 := by
  intro b hb
  unfold utf8Encode at hb
  simp only [List.mem_flatMap] at hb
  obtain ⟨c, _, hc⟩ := hb
  have hvc := char_toNat_valid c
  exact utf8EncodeCP_lt_256 c.toNat (by omega) b hc

/-- Base64 decoding plus UTF-8 decoding undoes the library's payload
encoding. -/
theorem b64DecodeStr_encode (s : String) : b64DecodeStr (b64EncodeStr s) = s := by
  show utf8Decode (b64Decode (b64EncodeBytes (utf8Encode s))) = s
  unfold b64Decode
  have h := b64Decode_encode (utf8Encode s).length (utf8Encode s) le_rfl (utf8Encode_lt_256 s)
  unfold b64Decode at h
  rw [h]
  exact utf8Decode_encode s

/-! ### Percent-encoding round trip (ASCII payloads) -/

/-- An unreserved character is not the escape character. -/
theorem uriUnreserved_ne_pct (c : Char) (h : isUriUnreserved c = true) : ¬(c = pctChar) := by
  intro hc
  subst hc
  revert h
  decide

/-- Upper-case hex digits read back. -/
theorem hexVal_hexDigitU (m : Nat) (hm : m < 16) : hexVal (hexDigitU m) = some m := by
  by_cases h : m < 10
  · rw [hexDigitU, if_pos h, hexVal]
    have ht : (Char.ofNat (48 + m)).toNat = 48 + m := charToNat_ofNat_small _ (by omega)
    simp only [ht]
    rw [if_pos (by omega)]
    congr 1
    omega
  · rw [hexDigitU, if_neg h, hexVal]
    have ht : (Char.ofNat (55 + m)).toNat = 55 + m := charToNat_ofNat_small _ (by omega)
    simp only [ht]
    rw [if_neg (by omega), if_pos (by omega)]
    congr 1
    omega

/-- Decoding the percent-encoding of an ASCII character list yields its
UTF-8 (here: identity) bytes. -/
theorem pctDecodeBytes_encode (cs : List Char) (h : ∀ c ∈ cs, c.toNat < 128) :
    pctDecodeBytes (cs.flatMap (fun c =>
      if isUriUnreserved c then [c] else (utf8EncodeCP c.toNat).flatMap pctEncodeByte)) =
      some (cs.flatMap (fun c => utf8EncodeCP c.toNat)) := by
  induction cs with
  | nil => rfl
  | cons c cs ih =>
    have hc : c.toNat < 128 := h c (by simp)
    have hrest : ∀ x ∈ cs, x.toNat < 128 := fun x hx => h x (by simp [hx])
    have henc1 : utf8EncodeCP c.toNat = [c.toNat] := by rw [utf8EncodeCP, if_pos (by omega)]
    simp only [List.flatMap_cons]
    by_cases hu : isUriUnreserved c = true
    · rw [if_pos hu]
      simp only [List.cons_append, List.nil_append]
      rw [pctDecodeBytes.eq_def]
      simp only []
      rw [if_neg (uriUnreserved_ne_pct c hu), ih hrest]
      rw [henc1]
      rfl
    · rw [if_neg hu, henc1]
      simp only [List.flatMap_cons, List.flatMap_nil, List.append_nil, pctEncodeByte]
      simp only [List.cons_append, List.nil_append]
      rw [pctDecodeBytes.eq_def]
      simp only []
      rw [if_pos trivial]
      rw [show hexVal (hexDigitU (c.toNat / 16)) = some (c.toNat / 16) from
        hexVal_hexDigitU _ (by omega)]
      rw [show hexVal (hexDigitU (c.toNat % 16)) = some (c.toNat % 16) from
        hexVal_hexDigitU _ (by omega)]
      simp only []
      rw [ih hrest]
      have hv : c.toNat / 16 * 16 + c.toNat % 16 = c.toNat := by omega
      simp [hv]

/-- Decoding undoes `encodeURIComponent` on ASCII strings. -/
theorem decodeURIComponentM_encode (s : String) (h : ∀ c ∈ s.data, c.toNat < 128) :
    decodeURIComponentM (encodeURIComponent s) = some s := by
  unfold decodeURIComponentM
  show (pctDecodeBytes (s.data.flatMap (fun c =>
    if isUriUnreserved c then [c] else (utf8EncodeCP c.toNat).flatMap pctEncodeByte))).bind
      utf8DecodeStrict = some s
  rw [pctDecodeBytes_encode s.data h]
  show utf8DecodeStrict (utf8Encode s) = some s
  exact utf8DecodeStrict_encode s

/-- All-verbatim encoding is the identity. -/
theorem encodeFlatMap_keep (cs : List Char) (hall : ∀ c ∈ cs, isUriUnreserved c = true) :
    cs.flatMap (fun c =>
      if isUriUnreserved c then [c] else (utf8EncodeCP c.toNat).flatMap pctEncodeByte) = cs := by
  induction cs with
  | nil => rfl
  | cons c cs ih =>
    simp only [List.flatMap_cons]
    rw [if_pos (hall c (by simp)), ih (fun x hx => hall x (by simp [hx]))]
    rfl

/-- If no escape was produced, every character was kept verbatim. -/
theorem encodeURIComponent_no_pct (s : String)
    (h : ¬((encodeURIComponent s).data.contains pctChar = true)) :
    encodeURIComponent s = s := by
  have h' : pctChar ∉ (encodeURIComponent s).data := by
    intro hmem
    exact h (by simpa using hmem)
  have hall : ∀ c ∈ s.data, isUriUnreserved c = true := by
    intro c hc
    by_contra hu
    apply h'
    simp only [encodeURIComponent]
    show pctChar ∈ _
    simp only [List.mem_flatMap]
    refine ⟨c, hc, ?_⟩
    rw [if_neg hu]
    have henc := utf8EncodeCP_length_pos c.toNat
    rcases hb : utf8EncodeCP c.toNat with _ | ⟨b, t⟩
    · rw [hb] at henc; simp at henc
    · simp [pctEncodeByte]
  show String.mk _ = s
  rw [encodeFlatMap_keep s.data hall]

/-- The `cookie` package's `tryDecode` undoes the encoding on ASCII values. -/
theorem cookieTryDecode_encode (s : String) (h : ∀ c ∈ s.data, c.toNat < 128) :
    cookieTryDecode (encodeURIComponent s) = s := by
  unfold cookieTryDecode
  by_cases hp : (encodeURIComponent s).data.contains pctChar = true
  · rw [if_pos hp, decodeURIComponentM_encode s h]
    rfl
  · rw [if_neg hp, encodeURIComponent_no_pct s hp]

/-- Character classes appearing in `encodeURIComponent` output. -/
theorem encodeURIComponent_chars (s : String) : ∀ c ∈ (encodeURIComponent s).data,
    isUriUnreserved c = true ∨ c = pctChar ∨ (48 ≤ c.toNat ∧ c.toNat ≤ 57) ∨
      (65 ≤ c.toNat ∧ c.toNat ≤ 70) := by
  intro c hc
  simp only [encodeURIComponent] at hc
  show _ ∨ _ ∨ _ ∨ _
  simp only [List.mem_flatMap] at hc
  obtain ⟨x, _, hx⟩ := hc
  by_cases hu : isUriUnreserved x = true
  · rw [if_pos hu] at hx
    simp at hx
    subst hx
    exact Or.inl hu
  · rw [if_neg hu] at hx
    simp only [List.mem_flatMap] at hx
    obtain ⟨b, hbm, hb⟩ := hx
    have hvx := char_toNat_valid x
    have hb256 : b < 256 := utf8EncodeCP_lt_256 x.toNat (by omega) b hbm
    simp only [pctEncodeByte, List.mem_cons] at hb
    rcases hb with hb | hb | hb
    · subst hb; exact Or.inr (Or.inl rfl)
    · subst hb
      right; right
      unfold hexDigitU
      split
      · rw [charToNat_ofNat_small _ (by omega)]
        left; omega
      · rw [charToNat_ofNat_small _ (by omega)]
        right
        constructor <;> omega
    · simp at hb
      subst hb
      right; right
      unfold hexDigitU
      split
      · rw [charToNat_ofNat_small _ (by omega)]
        left; omega
      · rw [charToNat_ofNat_small _ (by omega)]
        right
        constructor <;> omega

/-- Splitting at semicolons of a semicolon-free list. -/
theorem splitSemi_no_semi (cs : List Char) (h : ∀ c ∈ cs, ¬(c = semiChar)) :
    splitSemi cs = [cs] := by
  induction cs with
  | nil => rfl
  | cons c cs ih =>
    unfold splitSemi at ih ⊢
    simp only [List.foldr_cons]
    rw [ih (fun x hx => h x (by simp [hx]))]
    rw [if_neg (h c (by simp))]

/-- `idxOf` over a separator-free prefix finds the separator. -/
theorem idxOf_append (l1 l2 : List Char) (t : Char) (h : ∀ c ∈ l1, ¬(c = t)) :
    idxOf (l1 ++ t :: l2) t = some l1.length := by
  induction l1 with
  | nil => simp [idxOf]
  | cons c cs ih =>
    simp only [List.cons_append, idxOf]
    rw [if_neg (h c (by simp))]
    show Option.map Nat.succ (idxOf (cs ++ t :: l2) t) = some (c :: cs).length
    rw [ih (fun x hx => h x (by simp [hx]))]
    rfl

/-- `dropWhile` of an all-failing list. -/
theorem dropWhile_all_false (p : Char → Bool) (cs : List Char) (h : ∀ c ∈ cs, p c = false) :
    cs.dropWhile p = cs := by
  cases cs with
  | nil => rfl
  | cons c t => simp [List.dropWhile_cons, h c (by simp)]

/-- `jsTrim` of a string with no whitespace anywhere. -/
theorem jsTrim_id (cs : List Char) (h : ∀ c ∈ cs, isJsWs c = false) : jsTrim cs = cs := by
  unfold jsTrim
  rw [dropWhile_all_false _ cs h]
  rw [dropWhile_all_false _ cs.reverse (fun c hc => h c (List.mem_reverse.mp hc))]
  simp

/-- Printable ASCII is not JavaScript whitespace. -/
theorem isJsWs_false_of_bounds (c : Char) (h1 : 33 ≤ c.toNat) (h2 : c.toNat ≤ 126) :
    isJsWs c = false := by
  simp [isJsWs]
  omega

/-- Token characters are printable ASCII punctuation and alphanumerics. -/
theorem isCookieTokenChar_bounds (c : Char) (h : isCookieTokenChar c = true) :
    33 ≤ c.toNat ∧ c.toNat ≤ 126 := by
  simp [isCookieTokenChar] at h
  omega

/-- Unreserved characters are printable ASCII. -/
theorem isUriUnreserved_bounds (c : Char) (h : isUriUnreserved c = true) :
    33 ≤ c.toNat ∧ c.toNat ≤ 126 := by
  simp [isUriUnreserved] at h
  omega

/-- Bounds for any character of `encodeURIComponent` output. -/
theorem encodeURIComponent_char_bounds (s : String) :
    ∀ c ∈ (encodeURIComponent s).data, 33 ≤ c.toNat ∧ c.toNat ≤ 126 := by
  intro c hc
  rcases encodeURIComponent_chars s c hc with h | h | h | h
  · exact isUriUnreserved_bounds c h
  · subst h; constructor <;> decide
  · omega
  · omega

/-- No character of `encodeURIComponent` output is a semicolon, an equals
sign, a quote, or whitespace. -/
theorem encodeURIComponent_char_safe (s : String) : ∀ c ∈ (encodeURIComponent s).data,
    ¬(c = semiChar) ∧ ¬(c = quoteChar) ∧ isJsWs c = false := by
  intro c hc
  rcases encodeURIComponent_chars s c hc with h | h | h | h
  · have hb := isUriUnreserved_bounds c h
    refine ⟨?_, ?_, isJsWs_false_of_bounds c hb.1 hb.2⟩
    · intro hq; subst hq; revert h; decide
    · intro hq; subst hq; revert h; decide
  · subst h
    exact ⟨by decide, by decide, by decide⟩
  · refine ⟨?_, ?_, isJsWs_false_of_bounds c (by omega) (by omega)⟩
    · intro hq
      subst hq
      have h59 : semiChar.toNat = 59 := rfl
      omega
    · intro hq
      subst hq
      have h34 : quoteChar.toNat = 34 := rfl
      omega
  · refine ⟨?_, ?_, isJsWs_false_of_bounds c (by omega) (by omega)⟩
    · intro hq
      subst hq
      have h59 : semiChar.toNat = 59 := rfl
      omega
    · intro hq
      subst hq
      have h34 : quoteChar.toNat = 34 := rfl
      omega

/-- Token characters are not separators or whitespace. -/
theorem isCookieTokenChar_safe (c : Char) (h : isCookieTokenChar c = true) :
    ¬(c = semiChar) ∧ ¬(c = eqSignChar) ∧ isJsWs c = false := by
  have hb := isCookieTokenChar_bounds c h
  simp only [isCookieTokenChar] at h
  refine ⟨?_, ?_, isJsWs_false_of_bounds c hb.1 hb.2⟩
  · intro hq; subst hq; revert h; decide
  · intro hq; subst hq; revert h; decide

/-- `cookie.parse` of a single `name=value` pair as the library emits it:
the name is recovered as the key and the percent-decoded value as the
value. -/
theorem cookieParse_single (name value : String)
    (hname : ∀ c ∈ name.data, isCookieTokenChar c = true)
    (hval : ∀ c ∈ value.data, c.toNat < 128) :
    cookieParse (name ++ "=" ++ encodeURIComponent value) = [(name, value)] := by
  have heqdata : ("=" : String).data = [eqSignChar] := rfl
  have hdata : (name ++ "=" ++ encodeURIComponent value).data =
      name.data ++ eqSignChar :: (encodeURIComponent value).data := by
    rw [String.data_append, String.data_append, heqdata]
    simp
  unfold cookieParse
  rw [hdata]
  rw [splitSemi_no_semi _ ?hsemi]
  case hsemi =>
    intro c hc
    rcases List.mem_append.mp hc with hc | hc
    · exact (isCookieTokenChar_safe c (hname c hc)).1
    · rcases List.mem_cons.mp hc with hc | hc
      · subst hc; decide
      · exact (encodeURIComponent_char_safe value c hc).1
  simp only [List.foldl_cons, List.foldl_nil]
  rw [idxOf_append _ _ _ (fun c hc => (isCookieTokenChar_safe c (hname c hc)).2.1)]
  simp only []
  rw [List.take_left, jsTrim_id name.data
    (fun c hc => (isCookieTokenChar_safe c (hname c hc)).2.2)]
  have hdrop : (name.data ++ eqSignChar :: (encodeURIComponent value).data).drop
      (name.data.length + 1) = (encodeURIComponent value).data := by
    have : name.data ++ eqSignChar :: (encodeURIComponent value).data =
        (name.data ++ [eqSignChar]) ++ (encodeURIComponent value).data := by simp
    rw [this]
    have hlen : (name.data ++ [eqSignChar]).length = name.data.length + 1 := by simp
    rw [← hlen, List.drop_left]
  rw [hdrop]
  rw [jsTrim_id _ (fun c hc => (encodeURIComponent_char_safe value c hc).2.2)]
  have hquote : ¬((encodeURIComponent value).data.head? = some quoteChar) := by
    intro hq
    rcases hd : (encodeURIComponent value).data with _ | ⟨c, t⟩
    · rw [hd] at hq; simp at hq
    · rw [hd] at hq
      simp at hq
      exact (encodeURIComponent_char_safe value c (by rw [hd]; simp)).2.1 hq
  rw [if_neg hquote]
  show objSet [] (String.mk name.data) (cookieTryDecode (String.mk (encodeURIComponent value).data)) = _
  rw [show String.mk name.data = name from rfl,
    show String.mk (encodeURIComponent value).data = encodeURIComponent value from rfl,
    cookieTryDecode_encode value hval]
  rfl

/-- `fieldContentRegExp` accepts non-empty printable-ASCII strings. -/
theorem fieldContentOk_of_bounds (s : String) (hne : ¬(s = ""))
    (hb : ∀ c ∈ s.data, 32 ≤ c.toNat ∧ c.toNat ≤ 126) : fieldContentOk s = true := by
  unfold fieldContentOk
  rw [Bool.and_eq_true]
  constructor
  · rw [List.all_eq_true]
    intro c hc
    have := hb c hc
    simp only [Bool.or_eq_true, beq_iff_eq, Bool.and_eq_true, decide_eq_true_eq]
    omega
  · simp [hne]

/-- The encoded cookie value always passes the serializer's value check. -/
theorem cookieSerialize_val_ok (value : String) :
    ¬(encodeURIComponent value ≠ "" ∧ (!fieldContentOk (encodeURIComponent value)) = true) := by
  rintro ⟨h1, h2⟩
  rw [fieldContentOk_of_bounds (encodeURIComponent value) h1
    (fun c hc => by have := encodeURIComponent_char_bounds value c hc; omega)] at h2
  simp at h2

/-- The attribute tail appended by `cookieSerializeTail` under well-formed
options. -/
theorem cookieSerializeTail_ok (str : String) (o : CookieOptions)
    (hp : o.path ≠ "" → fieldContentOk o.path = true)
    (hss : o.sameSite = "strict" ∨ o.sameSite = "lax" ∨ o.sameSite = "none") :
    cookieSerializeTail str o = .ok (str ++
      ((if o.path ≠ "" then "; Path=" ++ o.path else "") ++
        ((if o.httpOnly then "; HttpOnly" else "") ++
          ((if o.secure then "; Secure" else "") ++
            (if o.sameSite = "strict" then "; SameSite=Strict"
            else if o.sameSite = "lax" then "; SameSite=Lax"
            else "; SameSite=None"))))) := by
  unfold cookieSerializeTail
  by_cases hpe : o.path ≠ ""
  · rw [if_pos hpe, if_neg (by simp [hp hpe]), if_pos hpe]
    simp only []
    rcases hss with h | h | h <;>
      by_cases hho : o.httpOnly <;> by_cases hsec : o.secure <;>
        simp [h, hho, hsec, String.append_assoc]
  · rw [if_neg hpe, if_neg hpe]
    simp only []
    rcases hss with h | h | h <;>
      by_cases hho : o.httpOnly <;> by_cases hsec : o.secure <;>
        simp [h, hho, hsec, String.append_assoc]

/-- `takeWhile` passes over an all-satisfying prefix. -/
theorem takeWhile_append_all (p : Char → Bool) (l1 l2 : List Char)
    (h1 : ∀ c ∈ l1, p c = true) : (l1 ++ l2).takeWhile p = l1 ++ l2.takeWhile p := by
  induction l1 with
  | nil => rfl
  | cons c t ih =>
    simp only [List.cons_append, List.takeWhile_cons, h1 c (by simp), if_true]
    rw [ih (fun x hx => h1 x (by simp [hx]))]

/-- Under well-formed options, serialization succeeds, and splitting its
output at the first semicolon recovers the `name=value` pair (the part a
client echoes back in a `Cookie` header). -/
theorem cookieSerialize_ok (name value : String) (o : CookieOptions)
    (hname : ∀ c ∈ name.data, isCookieTokenChar c = true) (hnne : ¬(name = ""))
    (hd : ∀ d, o.domain = some d → fieldContentOk d = true)
    (hp : o.path ≠ "" → fieldContentOk o.path = true)
    (hss : o.sameSite = "strict" ∨ o.sameSite = "lax" ∨ o.sameSite = "none") :
    ∃ out : String, cookieSerialize name value o = .ok out ∧
      out.data.takeWhile (fun c => !(c = semiChar)) =
        (name ++ "=" ++ encodeURIComponent value).data := by
  have hn : fieldContentOk name = true := by
    apply fieldContentOk_of_bounds name hnne
    intro c hc
    have := isCookieTokenChar_bounds c (hname c hc)
    omega
  have htw : ∀ X : List Char,
      (name.data ++ (['='] ++ ((encodeURIComponent value).data ++
        ([';', ' ', 'M', 'a', 'x', '-', 'A', 'g', 'e', '='] ++ X)))).takeWhile
          (fun c => !(c = semiChar)) =
        name.data ++ (['='] ++ (encodeURIComponent value).data) := by
    intro X
    rw [takeWhile_append_all _ name.data _ (fun c hc => by
      simp only [Bool.not_eq_true']
      exact decide_eq_false ((isCookieTokenChar_safe c (hname c hc)).1))]
    rw [show (['='] ++ ((encodeURIComponent value).data ++
        ([';', ' ', 'M', 'a', 'x', '-', 'A', 'g', 'e', '='] ++ X))).takeWhile
          (fun c => !(c = semiChar)) =
        '=' :: ((encodeURIComponent value).data ++
          ([';', ' ', 'M', 'a', 'x', '-', 'A', 'g', 'e', '='] ++ X)).takeWhile
            (fun c => !(c = semiChar)) from by
      rw [List.cons_append, List.takeWhile_cons, if_pos (by decide), List.nil_append]]
    rw [takeWhile_append_all _ (encodeURIComponent value).data _ (fun c hc => by
      simp only [Bool.not_eq_true']
      exact decide_eq_false ((encodeURIComponent_char_safe value c hc).1))]
    rw [show ([';', ' ', 'M', 'a', 'x', '-', 'A', 'g', 'e', '='] ++ X).takeWhile
        (fun c => !(c = semiChar)) = [] from by
      rw [List.cons_append, List.takeWhile_cons, if_neg (by decide)]]
    simp
  unfold cookieSerialize
  rw [if_neg (by simp [hn]), if_neg (cookieSerialize_val_ok value)]
  rcases hdm : o.domain with _ | d
  · show ∃ out, cookieSerializeTail
        (name ++ "=" ++ encodeURIComponent value ++ "; Max-Age=" ++
          String.mk (intDecChars o.maxAge)) o = .ok out ∧
      out.data.takeWhile (fun c => !(c = semiChar)) =
        (name ++ "=" ++ encodeURIComponent value).data
    rw [cookieSerializeTail_ok _ o hp hss]
    refine ⟨_, rfl, ?_⟩
    simp only [String.data_append, List.append_assoc]
    apply htw
  · show ∃ out, (if (!fieldContentOk d) = true then
        (Except.error ("TypeError: option domain is invalid") : Except String String)
      else cookieSerializeTail
        (name ++ "=" ++ encodeURIComponent value ++ "; Max-Age=" ++
          String.mk (intDecChars o.maxAge) ++ "; Domain=" ++ d) o) = .ok out ∧
      out.data.takeWhile (fun c => !(c = semiChar)) =
        (name ++ "=" ++ encodeURIComponent value).data
    rw [if_neg (by simp [hd d hdm])]
    rw [cookieSerializeTail_ok _ o hp hss]
    refine ⟨_, rfl, ?_⟩
    simp only [String.data_append, List.append_assoc]
    apply htw

/-! ### Wrapper-level supporting lemmas -/

/-- Setting then reading a property. -/
theorem objGet_objSet_self {α : Type} (l : List (String × α)) (k : String) (v : α) :
    objGet (objSet l k v) k = some v := by
  induction l with
  | nil => simp [objSet, objGet, List.find?]
  | cons p rest ih =>
    obtain ⟨k', v'⟩ := p
    by_cases h : k' == k
    · simp only [objSet, if_pos h]
      simp [objGet, List.find?]
    · simp only [objSet, if_neg h]
      simp only [objGet, List.find?] at ih ⊢
      have hf : (k' == k) = false := by simpa using h
      rw [hf]
      exact ih

/-- The cookie-name resolver only accepts non-empty token strings, and
returns them unchanged. -/
theorem getCookieName_ok_token (env : Env) (n : String) (h : getCookieName env = .ok n) :
    ¬(n = "") ∧ ∀ c ∈ n.data, isCookieTokenChar c = true := by
  unfold getCookieName at h
  rcases henv : env.name with _ | m
  · rw [henv] at h
    simp only [Except.ok.injEq] at h
    subst h
    constructor
    · decide
    · decide
  · rw [henv] at h
    simp only [] at h
    rcases hrun : firstTokenRun m.data with _ | r
    · rw [hrun] at h
      split at h
      · simp at h
      · simp at h
    · rw [hrun] at h
      split at h
      · simp at h
      · next hlen =>
        simp only [] at h
        split at h
        · simp at h
        · next heq =>
          simp only [Except.ok.injEq] at h
          subst h
          push_neg at heq
          constructor
          · intro hempty
            subst hempty
            simp at hlen
          · intro c hc
            rw [← heq] at hc
            unfold firstTokenRun at hrun
            rcases hdrop : m.data.dropWhile (fun c => !isCookieTokenChar c) with _ | ⟨c0, t0⟩
            · rw [hdrop] at hrun; simp at hrun
            · rw [hdrop] at hrun
              simp only [Option.some.injEq] at hrun
              rw [← hrun] at hc
              exact List.mem_takeWhile_imp hc

/-! ### Concrete instances used throughout the development -/

/-- A 32-byte ASCII secret. -/
def secretStd : String := "0123456789abcdefghijklmnopqrstuv"

/-- Environment with only the secret configured. -/
def envStd : Env :=
  { secret := some secretStd, name := none, httpOnly := none, secure := none
    sameSite := none, maxAgeSpan := none, domain := none, path := none }

/-- Environment with nothing configured. -/
def envNone : Env :=
  { secret := none, name := none, httpOnly := none, secure := none
    sameSite := none, maxAgeSpan := none, domain := none, path := none }

/-- Environment with a valid secret and a cookie-name override. -/
def mkNameEnv (n : Option String) : Env :=
  { secret := some secretStd, name := n, httpOnly := none, secure := none
    sameSite := none, maxAgeSpan := none, domain := none, path := none }

/-- Environment with a valid secret and a SameSite override. -/
def mkSameSiteEnv (v : Option String) : Env :=
  { secret := some secretStd, name := none, httpOnly := none, secure := none
    sameSite := v, maxAgeSpan := none, domain := none, path := none }

/-- A deterministic keyed hash whose digest is the key itself (injective in
the key; ASCII whenever the keys are). -/
def macConstKey : Mac := fun key _ => key

/-- A degenerate keyed hash: every digest is the 43-character string
`AAA…A`, matching the length of a base64 HMAC-SHA256 digest. -/
def macA : Mac := fun _ _ => String.mk (List.replicate 43 (Char.ofNat 65))

/-- Event with no headers at all. -/
def ev0 : LEvent := { multiValueHeaders := none }

/-- A context whose client context exists but holds no session container
yet (the state of a fresh invocation). -/
def ctxFresh : Context := { clientContext := some { sessionCookieData := none } }

/-- Handler that returns an empty response and does not touch the session. -/
def handlerOk : Handler := fun _ _ h =>
  .ok (h, { headers := none, multiValueHeaders := none })

/-- Handler returning a fixed response, not touching the session. -/
def handlerConst (r : LResponse) : Handler := fun _ _ h => .ok (h, r)

/-- Handler that overwrites the session container with `o`. -/
def handlerWrite (o : JObj) : Handler := fun _ ctx h =>
  match ctx.clientContext with
  | some cc =>
    match cc.sessionCookieData with
    | some a => .ok (heapSet h a o, { headers := none, multiValueHeaders := none })
    | none => .ok (h, { headers := none, multiValueHeaders := none })
  | none => .ok (h, { headers := none, multiValueHeaders := none })

/-- The `name=value` part of a serialized cookie: everything before the
first `;` (what a client echoes back in its `Cookie` header). -/
def firstCookiePair (s : String) : String :=
  String.mk (s.data.takeWhile (fun c => !(c = semiChar)))

/-- Concatenation of the member lists of two objects. -/
def JObj.appendO : JObj → JObj → JObj
  | .nil, o => o
  | .cons k v r, o => .cons k v (JObj.appendO r o)

/-! ### Small structural lemmas -/

/-- Rebuilding a string from its character list. -/
theorem stringMk_data (s : String) : String.mk s.data = s := rfl

/-- A string is empty exactly when its character list is. -/
theorem string_eq_empty_iff (s : String) : s = "" ↔ s.data = [] := by
  constructor
  · intro h; rw [h]
  · intro h
    apply String.ext
    rw [h]

/-- Every base64 alphabet character is ASCII. -/
theorem b64Char_lt_128 (n : Nat) : (b64Char n).toNat < 128 := by
  unfold b64Char
  split
  · rw [charToNat_ofNat_small _ (by omega)]; omega
  split
  · rw [charToNat_ofNat_small _ (by omega)]; omega
  split
  · rw [charToNat_ofNat_small _ (by omega)]; omega
  split
  · rw [charToNat_ofNat_small _ (by omega)]; omega
  · rw [charToNat_ofNat_small _ (by omega)]; omega

/-- Base64 encodings are ASCII. -/
def b64EncodeBytes_ascii : ∀ (bs : List Nat), ∀ c ∈ b64EncodeBytes bs, c.toNat < 128
  | [], c, h => by simp [b64EncodeBytes] at h
  | [a], c, h => by
    simp only [b64EncodeBytes, List.mem_cons, List.not_mem_nil, or_false] at h
    rcases h with h | h | h | h <;> subst h
    · exact b64Char_lt_128 _
    · exact b64Char_lt_128 _
    · decide
    · decide
  | [a, b], c, h => by
    simp only [b64EncodeBytes, List.mem_cons, List.not_mem_nil, or_false] at h
    rcases h with h | h | h | h <;> subst h
    · exact b64Char_lt_128 _
    · exact b64Char_lt_128 _
    · exact b64Char_lt_128 _
    · decide
  | a :: b :: d :: rest, c, h => by
    simp only [b64EncodeBytes, List.mem_cons] at h
    rcases h with h | h | h | h | h
    · subst h; exact b64Char_lt_128 _
    · subst h; exact b64Char_lt_128 _
    · subst h; exact b64Char_lt_128 _
    · subst h; exact b64Char_lt_128 _
    · exact b64EncodeBytes_ascii rest c h

/-- The base64 rendering of a string is ASCII. -/
theorem b64EncodeStr_ascii (s : String) : ∀ c ∈ (b64EncodeStr s).data, c.toNat < 128 := by
  intro c hc
  exact b64EncodeBytes_ascii _ c (by simp [b64EncodeStr] at hc; exact hc)

/-- Deleting a property removes it. -/
theorem objGet_objDelete_self {α : Type} (l : List (String × α)) (k : String) :
    objGet (objDelete l k) k = none := by
  induction l with
  | nil => rfl
  | cons p rest ih =>
    obtain ⟨k', v'⟩ := p
    by_cases h : k' == k
    · simp only [objDelete, List.filter_cons, h, Bool.not_true, Bool.false_eq_true,
        if_false, reduceIte]
      simp only [objDelete] at ih
      exact ih
    · have hf : (k' == k) = false := by simpa using h
      simp only [objDelete, List.filter_cons, hf, Bool.not_false, if_true, reduceIte]
      simp only [objGet, List.find?, hf] at ih ⊢
      simp only [objDelete] at ih
      exact ih

/-- Reading the freshly appended heap cell. -/
theorem heapGet_concat (h : Heap) : heapGet (h ++ [JObj.nil]) h.length = .nil := by
  simp [heapGet, List.getD, List.getElem?_concat_length]

/-- After writing `.nil` into any cell, reading that cell yields `.nil`
(out-of-range reads already default to `.nil`). -/
theorem heapGet_heapSet_nil (h : Heap) (a : Nat) :
    heapGet (heapSet h a JObj.nil) a = JObj.nil := by
  by_cases ha : a < h.length
  · simp [heapGet, heapSet, List.getD, List.getElem?_set_self, ha]
  · have hlen : (h.set a JObj.nil).length ≤ a := by simp; omega
    simp [heapGet, heapSet, List.getD, List.getElem?_eq_none hlen]

/-! ### Object-merge lemmas -/

/-- Appending the empty object. -/
theorem JObj.appendO_nil : ∀ (o : JObj), JObj.appendO o .nil = o
  | .nil => rfl
  | .cons k v r => by simp [JObj.appendO, JObj.appendO_nil r]

/-- Keys of a concatenation. -/
theorem JObj.keys_appendO : ∀ (a b : JObj), (JObj.appendO a b).keys = a.keys ++ b.keys
  | .nil, b => rfl
  | .cons k v r, b => by simp [JObj.appendO, JObj.keys, JObj.keys_appendO r b]

/-- Associativity of object concatenation. -/
theorem JObj.appendO_assoc : ∀ (a b c : JObj),
    JObj.appendO (JObj.appendO a b) c = JObj.appendO a (JObj.appendO b c)
  | .nil, _, _ => rfl
  | .cons k v r, b, c => by simp [JObj.appendO, JObj.appendO_assoc r b c]

/-- Assigning a fresh key appends it at the end. -/
theorem JObj.set_fresh (k : String) (v : JValue) :
    ∀ (pre : JObj), ¬(k ∈ pre.keys) → JObj.set pre k v = JObj.appendO pre (.cons k v .nil)
  | .nil, _ => rfl
  | .cons k2 v2 r, hk => by
    simp only [JObj.keys, List.mem_cons, not_or] at hk
    have hne : ¬((k2 == k) = true) := by
      simp only [beq_iff_eq]
      exact fun h => hk.1 h.symm
    simp only [JObj.set, if_neg hne, JObj.appendO]
    rw [JObj.set_fresh k v r hk.2]

/-- Assigning the entries of `o` (fresh, duplicate-free keys) into `pre`
concatenates the two objects. -/
theorem jsAssignEntries_appendO :
    ∀ (o : JObj) (pre : JObj), (∀ k ∈ o.keys, ¬(k ∈ pre.keys)) → o.keys.Nodup →
      jsAssignEntries pre o.toPairs = JObj.appendO pre o
  | .nil, pre, _, _ => by
    simp [jsAssignEntries, JObj.toPairs, JObj.appendO_nil]
  | .cons k v r, pre, hdisj, hnd => by
    simp only [JObj.toPairs, jsAssignEntries, List.foldl_cons]
    have hk : ¬(k ∈ pre.keys) := hdisj k (by simp [JObj.keys])
    rw [JObj.set_fresh k v pre hk]
    have hndc := List.nodup_cons.mp (by simpa [JObj.keys] using hnd)
    have hd2 : ∀ k2 ∈ r.keys, ¬(k2 ∈ (JObj.appendO pre (.cons k v .nil)).keys) := by
      intro k2 hk2
      rw [JObj.keys_appendO]
      simp only [List.mem_append, JObj.keys, List.mem_cons, List.not_mem_nil, or_false,
        not_or]
      refine ⟨hdisj k2 (by simp [JObj.keys, hk2]), ?_⟩
      intro he
      exact hndc.1 (he ▸ hk2)
    have hrec := jsAssignEntries_appendO r (JObj.appendO pre (.cons k v .nil)) hd2 hndc.2
    simp only [jsAssignEntries] at hrec
    rw [hrec, JObj.appendO_assoc]
    rfl

/-- Assigning the entries of a duplicate-free object into an empty
container rebuilds the object. -/
theorem jsAssignEntries_toPairs (o : JObj) (hnd : o.keys.Nodup) :
    jsAssignEntries .nil o.toPairs = o := by
  rw [jsAssignEntries_appendO o .nil (by simp [JObj.keys]) hnd]
  rfl

/-- A successful cookie-name resolution with an override returns the
override itself. -/
theorem getCookieName_some_eq (env : Env) (n m : String) (hn : env.name = some n)
    (h : getCookieName env = .ok m) : m = n := by
  unfold getCookieName at h
  rw [hn] at h
  simp only [] at h
  rcases hrun : firstTokenRun n.data with _ | r
  · rw [hrun] at h
    split at h
    · simp at h
    · simp at h
  · rw [hrun] at h
    split at h
    · simp at h
    · simp only [] at h
      split at h
      · simp at h
      · simp only [Except.ok.injEq] at h
        exact h.symm

/-! ### Set-Cookie merge lemmas -/

/-- Lines 184–188 of the source: the multi-valued collection after making
sure the `Set-Cookie` entry exists. -/
def ensureSetCookie (mv : List (String × List String)) : List (String × List String) :=
  match objGet mv "Set-Cookie" with
  | none => objSet mv "Set-Cookie" []
  | some _ => mv

/-- The ensured collection always has a `Set-Cookie` entry, holding the
previous entries. -/
theorem objGet_ensureSetCookie (mv : List (String × List String)) :
    objGet (ensureSetCookie mv) "Set-Cookie" = some ((objGet mv "Set-Cookie").getD []) := by
  unfold ensureSetCookie
  rcases h : objGet mv "Set-Cookie" with _ | l
  · simp only [Option.getD_none]
    exact objGet_objSet_self mv "Set-Cookie" []
  · simp only [Option.getD_some]
    exact h

/-- Merge with no single-valued headers object at all. -/
theorem mergeSetCookie_noHeaders (mv : List (String × List String)) :
    mergeSetCookie { headers := none, multiValueHeaders := some mv } =
      { headers := none, multiValueHeaders := some (ensureSetCookie mv) } := by
  unfold mergeSetCookie ensureSetCookie
  simp only [Option.getD_some]

/-- Merge with a single-valued headers object holding no `Set-Cookie`. -/
theorem mergeSetCookie_noSingle (hs : List (String × String))
    (mv : List (String × List String)) (hget : objGet hs "Set-Cookie" = none) :
    mergeSetCookie { headers := some hs, multiValueHeaders := some mv } =
      { headers := some hs, multiValueHeaders := some (ensureSetCookie mv) } := by
  unfold mergeSetCookie ensureSetCookie
  simp only [Option.getD_some]
  rw [hget]

/-- Merge with a truthy single-valued `Set-Cookie`: the value is appended
after the pre-existing multi-valued entries and the single-valued field is
deleted. -/
theorem mergeSetCookie_single (hs : List (String × String))
    (mv : List (String × List String)) (v : String)
    (hget : objGet hs "Set-Cookie" = some v) (hv : ¬(v = "")) :
    mergeSetCookie { headers := some hs, multiValueHeaders := some mv } =
      { headers := some (objDelete hs "Set-Cookie")
        multiValueHeaders := some (objSet (ensureSetCookie mv) "Set-Cookie"
          ((objGet mv "Set-Cookie").getD [] ++ [v])) } := by
  unfold mergeSetCookie
  simp only [Option.getD_some]
  rw [hget]
  simp only []
  rw [if_pos hv]
  have hens : (match objGet mv "Set-Cookie" with
      | none => objSet mv "Set-Cookie" ([] : List String)
      | some _ => mv) = ensureSetCookie mv := rfl
  rw [hens, objGet_ensureSetCookie]
  simp only [Option.getD_some]

/-! ### Wrapper-phase lemmas -/

/-- Reading back a freshly signed and encoded session payload restores the
assigned entries. -/
theorem readSessionData_ok (mac : Mac) (keys : List String) (k : String) (sess o : JObj)
    (hk : k ∈ keys)
    (hlen : (mac k (jsonStringify o)).data.length = SIGNATURE_DIGEST_LENGTH) :
    readSessionData mac keys (mac k (jsonStringify o) ++ b64EncodeStr (jsonStringify o))
      sess = .ok (jsAssignEntries sess (JObj.toPairs o)) := by
  unfold readSessionData
  have hdata : (mac k (jsonStringify o) ++ b64EncodeStr (jsonStringify o)).data =
      (mac k (jsonStringify o)).data ++ (b64EncodeStr (jsonStringify o)).data := by
    simp [String.data_append]
  rw [hdata, ← hlen, List.take_left, List.drop_left, stringMk_data, stringMk_data]
  rw [b64DecodeStr_encode]
  simp only []
  have hver : keygripVerify mac keys (jsonStringify o) (mac k (jsonStringify o)) = true := by
    unfold keygripVerify
    rw [List.any_eq_true]
    exact ⟨k, hk, by simp⟩
  rw [hver]
  simp only [if_true]
  rw [jsonParse_stringify]
  simp only [jsEntries]

/-- The parse phase does nothing when no cookie header is present. -/
theorem wrapperParsePhase_none (mac : Mac) (keys : List String) (name : String)
    (event : LEvent) (addr : Nat) (h : Heap) (hev : getIncomingCookies event = none) :
    wrapperParsePhase mac keys name event addr h = .ok h := by
  unfold wrapperParsePhase
  rw [hev]

/-- The parse phase merges a successfully decoded session cookie into the
container. -/
theorem wrapperParsePhase_cookie (mac : Mac) (keys : List String) (name : String)
    (event : LEvent) (addr : Nat) (h : Heap) (v : String) (vs : List String)
    (raw : String) (sess : JObj)
    (hev : getIncomingCookies event = some (v :: vs))
    (hparse : objGet (cookieParse v) name = some raw)
    (hraw : ¬(raw = ""))
    (hread : readSessionData mac keys raw (heapGet h addr) = .ok sess) :
    wrapperParsePhase mac keys name event addr h = .ok (heapSet h addr sess) := by
  unfold wrapperParsePhase
  rw [hev]
  simp only []
  rw [hparse]
  simp only []
  rw [if_pos hraw, hread]

/-- Assembly of one successful wrapper cycle from the outcomes of its
phases. -/
theorem sessionWrapper_ok_parts (mac : Mac) (env : Env) (handler : Handler)
    (event : LEvent) (ctx : Context) (h : Heap) (cookieName secret : String)
    (addr : Nat) (ctx1 : Context) (h1 h2 h3 : Heap) (resp0 : LResponse) (out : String)
    (hn : getCookieName env = .ok cookieName)
    (hs : getSecretKey env = .ok secret)
    (hg : getSession ctx h = .ok (addr, ctx1, h1))
    (hp : wrapperParsePhase mac [secret] cookieName event addr h1 = .ok h2)
    (hh : handler event ctx1 h2 = .ok (h3, resp0))
    (hser : cookieSerialize cookieName
      (keygripSign mac [secret] (jsonStringify (heapGet h3 addr)) ++
        b64EncodeStr (jsonStringify (heapGet h3 addr))) (getCookieOptions env) = .ok out) :
    sessionWrapper mac env handler event ctx h = .ok (h3,
      { headers := (mergeSetCookie resp0).headers
        multiValueHeaders := some (objSet ((mergeSetCookie resp0).multiValueHeaders.getD [])
          "Set-Cookie"
          ((objGet ((mergeSetCookie resp0).multiValueHeaders.getD []) "Set-Cookie").getD []
            ++ [out])) }) := by
  unfold sessionWrapper
  rw [hn]
  simp only []
  rw [hs]
  simp only []
  rw [hg]
  simp only []
  rw [hp]
  simp only []
  rw [hh]
  simp only []
  rw [hser]

/-! ### Claims -/

/-- C1 (corrected): a session cookie whose signature does not verify —
wrong length, tampering, unknown key, malformed base64 all end up here —
is silently ignored and the container is left as-is; but a cookie whose
signature verifies while its decoded payload is not valid JSON makes the
library throw a `SyntaxError` instead of degrading to an empty session. -/
theorem c1_read_failure_modes (mac : Mac) (keys : List String) (cookieVal : String)
    (sess : JObj) :
    (keygripVerify mac keys
        (b64DecodeStr (String.mk (cookieVal.data.drop SIGNATURE_DIGEST_LENGTH)))
        (String.mk (cookieVal.data.take SIGNATURE_DIGEST_LENGTH)) = false →
      readSessionData mac keys cookieVal sess = .ok sess) ∧
    (keygripVerify mac keys
        (b64DecodeStr (String.mk (cookieVal.data.drop SIGNATURE_DIGEST_LENGTH)))
        (String.mk (cookieVal.data.take SIGNATURE_DIGEST_LENGTH)) = true →
      jsonParse (b64DecodeStr (String.mk (cookieVal.data.drop SIGNATURE_DIGEST_LENGTH)))
        = none →
      readSessionData mac keys cookieVal sess =
        .error ("SyntaxError: Unexpected token in JSON at position 0")) := by
  constructor
  · intro hv
    unfold readSessionData
    simp only []
    rw [hv]
    simp
  · intro hv hj
    unfold readSessionData
    simp only []
    rw [hv]
    simp only [if_true]
    rw [hj]

/-- Witness for C1: the empty cookie value fails verification under the
degenerate keyed hash and is ignored; a well-signed non-JSON payload
(base64 `eA`, decoding to `x`) throws. -/
theorem c1_read_failure_modes_witness :
    readSessionData macA ["k"] "" .nil = .ok .nil ∧
    readSessionData macA ["k"]
      (String.mk (List.replicate 43 (Char.ofNat 65)) ++ "eA") .nil =
      .error ("SyntaxError: Unexpected token in JSON at position 0") :=
  ⟨(c1_read_failure_modes macA ["k"] "" .nil).1 (by decide),
   (c1_read_failure_modes macA ["k"]
      (String.mk (List.replicate 43 (Char.ofNat 65)) ++ "eA") .nil).2
     (by decide) (by decide)⟩

/-- Counterexample to C1 as stated: a request cookie with a valid
signature but a non-JSON payload makes the whole wrapper throw instead of
raising no error. -/
theorem c1_counterexample :
    sessionWrapper macA envStd handlerOk
      { multiValueHeaders := some [("cookie",
          ["session=" ++ String.mk (List.replicate 43 (Char.ofNat 65)) ++ "eA"])] }
      ctxFresh [] =
      .error ("SyntaxError: Unexpected token in JSON at position 0") := rfl

/-- C2 (corrected): the SameSite override is matched case-sensitively: the
exact literals Strict, Lax and None select the attribute (stored
lower-cased), and any other or missing value silently falls back to lax. -/
theorem c2_sameSite_case_sensitive (v : String) :
    (getCookieOptions (mkSameSiteEnv (some "Strict"))).sameSite = "strict" ∧
    (getCookieOptions (mkSameSiteEnv (some "Lax"))).sameSite = "lax" ∧
    (getCookieOptions (mkSameSiteEnv (some "None"))).sameSite = "none" ∧
    (getCookieOptions (mkSameSiteEnv none)).sameSite = "lax" ∧
    (¬(v = "Strict") → ¬(v = "Lax") → ¬(v = "None") →
      (getCookieOptions (mkSameSiteEnv (some v))).sameSite = "lax") := by
  refine ⟨by decide, by decide, by decide, by decide, ?_⟩
  intro h1 h2 h3
  show (if v = "Strict" ∨ v = "Lax" ∨ v = "None" then asciiLower v else "lax") = "lax"
  rw [if_neg (by tauto)]

/-- Witness for C2: a mixed-case override falls back to lax. -/
theorem c2_sameSite_case_sensitive_witness :
    (getCookieOptions (mkSameSiteEnv (some "lAx"))).sameSite = "lax" :=
  (c2_sameSite_case_sensitive "lAx").2.2.2.2 (by decide) (by decide) (by decide)

/-- Counterexample to C2 as stated: `strict` equals `Strict` up to case,
yet the resolved attribute is the fallback lax, not strict. -/
theorem c2_counterexample :
    asciiLower "strict" = asciiLower "Strict" ∧
    (getCookieOptions (mkSameSiteEnv (some "strict"))).sameSite = "lax" ∧
    ¬((getCookieOptions (mkSameSiteEnv (some "strict"))).sameSite = "strict") := by
  decide

/-- C3: signing uses the first keyring key; verification succeeds exactly
when some key of the keyring reproduces the signature; a signing key still
present anywhere in the keyring keeps verifying, and a keyring whose keys
all produce different digests from the signing key rejects. -/
theorem c3_keygrip (mac : Mac) (k : String) (keys : List String) (data sig : String) :
    keygripSign mac (k :: keys) data = mac k data ∧
    (keygripVerify mac keys data sig = true ↔ ∃ key ∈ keys, mac key data = sig) ∧
    (k ∈ keys → keygripVerify mac keys data (mac k data) = true) ∧
    ((∀ k2 ∈ keys, ¬(mac k2 data = mac k data)) →
      keygripVerify mac keys data (mac k data) = false) := by
  refine ⟨rfl, ?_, ?_, ?_⟩
  · unfold keygripVerify
    rw [List.any_eq_true]
    constructor
    · rintro ⟨key, hk, hb⟩
      exact ⟨key, hk, by simpa using hb⟩
    · rintro ⟨key, hk, hb⟩
      exact ⟨key, hk, by simpa using hb⟩
  · intro hk
    unfold keygripVerify
    rw [List.any_eq_true]
    exact ⟨k, hk, by simp⟩
  · intro hno
    unfold keygripVerify
    rw [← Bool.not_eq_true, List.any_eq_true]
    rintro ⟨key, hk, hb⟩
    exact hno key hk (by simpa using hb)

/-- Witness for C3: with the key-revealing hash, rotation works (`a` still
in the keyring verifies) and a keyring without the signing key rejects. -/
theorem c3_keygrip_witness :
    keygripVerify macConstKey ["b", "a"] "d" (macConstKey "a" "d") = true ∧
    keygripVerify macConstKey ["b", "c"] "d" (macConstKey "a" "d") = false :=
  ⟨(c3_keygrip macConstKey "a" ["b", "a"] "d" "").2.2.1 (by decide),
   (c3_keygrip macConstKey "a" ["b", "c"] "d" "").2.2.2 (by decide)⟩

/-- C4 (corrected): the inbound cookie-header lookup is not
case-insensitive: only the exact names Cookie and cookie are consulted,
lowercase overriding uppercase when both are present; among multiple
values of the chosen header the first is the one parsed. -/
theorem c4_cookie_header_lookup (ls lc : List String) (mac : Mac) (keys : List String)
    (name : String) (addr : Nat) (h : Heap) (v : String) (vs : List String) :
    getIncomingCookies { multiValueHeaders := none } = none ∧
    getIncomingCookies { multiValueHeaders := some [("Cookie", ls)] } = some ls ∧
    getIncomingCookies { multiValueHeaders := some [("cookie", lc)] } = some lc ∧
    getIncomingCookies { multiValueHeaders := some [("Cookie", ls), ("cookie", lc)] }
      = some lc ∧
    getIncomingCookies { multiValueHeaders := some [("COOKIE", ls)] } = none ∧
    wrapperParsePhase mac keys name { multiValueHeaders := some [("Cookie", v :: vs)] }
        addr h =
      wrapperParsePhase mac keys name { multiValueHeaders := some [("Cookie", [v])] }
        addr h :=
  ⟨rfl, rfl, rfl, rfl, rfl, rfl⟩

/-- Counterexample to C4 as stated: an upper-cased COOKIE header is
ignored entirely, unlike the same header named Cookie. -/
theorem c4_counterexample :
    getIncomingCookies { multiValueHeaders := some [("COOKIE", ["session=abc"])] }
      = none ∧
    ¬(getIncomingCookies { multiValueHeaders := some [("COOKIE", ["session=abc"])] } =
      getIncomingCookies { multiValueHeaders := some [("Cookie", ["session=abc"])] }) := by
  decide

/-- C5: an invalid configuration (bad cookie-name override or bad secret)
makes every wrapped invocation fail before the handler runs: the result is
an error and is independent of the handler, so the handler is never
invoked, no response is produced and no cookie is emitted. -/
theorem c5_config_error_preempts (mac : Mac) (env : Env) (handler handler2 : Handler)
    (event : LEvent) (ctx : Context) (h : Heap)
    (hcfg : (∃ e, getCookieName env = .error e) ∨ (∃ e, getSecretKey env = .error e)) :
    (∃ e, sessionWrapper mac env handler event ctx h = .error e) ∧
    sessionWrapper mac env handler event ctx h =
      sessionWrapper mac env handler2 event ctx h := by
  rcases hn : getCookieName env with e | name
  · unfold sessionWrapper
    rw [hn]
    exact ⟨⟨e, rfl⟩, rfl⟩
  · rcases hs : getSecretKey env with e | secret
    · unfold sessionWrapper
      rw [hn]
      simp only []
      rw [hs]
      exact ⟨⟨e, rfl⟩, rfl⟩
    · exfalso
      rcases hcfg with ⟨e, he⟩ | ⟨e, he⟩
      · rw [hn] at he
        simp at he
      · rw [hs] at he
        simp at he

/-- Witness for C5: with no secret configured, the wrapper fails
identically for two different handlers. -/
theorem c5_config_error_preempts_witness :
    (∃ e, sessionWrapper macA envNone handlerOk ev0 ctxFresh [] = .error e) ∧
    sessionWrapper macA envNone handlerOk ev0 ctxFresh [] =
      sessionWrapper macA envNone
        (handlerConst { headers := some [("X-Ran", "1")], multiValueHeaders := none })
        ev0 ctxFresh [] :=
  c5_config_error_preempts macA envNone handlerOk
    (handlerConst { headers := some [("X-Ran", "1")], multiValueHeaders := none })
    ev0 ctxFresh []
    (Or.inr ⟨"\"SESSION_COOKIE_SECRET\": No secret key provided.", rfl⟩)

/-- C8: a second `getSession` on the context returned by the first yields
the very same address, context and heap (same reference, with an empty
container allocated on first access), and `clearSession` empties exactly
that cell in place, changing neither the context handle nor the heap
layout. -/
theorem c8_session_identity (ctx : Context) (h : Heap) (a : Nat) (ctx1 : Context)
    (h1 : Heap) (hg : getSession ctx h = .ok (a, ctx1, h1)) :
    getSession ctx1 h1 = .ok (a, ctx1, h1) ∧
    clearSession ctx1 h1 = .ok (ctx1, heapSet h1 a .nil) ∧
    heapGet (heapSet h1 a .nil) a = .nil ∧
    (heapSet h1 a .nil).length = h1.length ∧
    (ctx.clientContext = some { sessionCookieData := none } → heapGet h1 a = .nil) := by
  unfold getSession at hg
  rcases hcc : ctx.clientContext with _ | cc
  · rw [hcc] at hg
    simp at hg
  · rw [hcc] at hg
    simp only [] at hg
    rcases hsd : cc.sessionCookieData with _ | a0
    · rw [hsd] at hg
      simp only [Except.ok.injEq, Prod.mk.injEq] at hg
      obtain ⟨ha, hctx1, hh1⟩ := hg
      subst ha
      subst hctx1
      subst hh1
      refine ⟨rfl, rfl, heapGet_heapSet_nil _ _, by simp [heapSet], ?_⟩
      intro _
      exact heapGet_concat h
    · rw [hsd] at hg
      simp only [Except.ok.injEq, Prod.mk.injEq] at hg
      obtain ⟨ha, hctx1, hh1⟩ := hg
      subst ha
      subst hctx1
      subst hh1
      refine ⟨?_, ?_, heapGet_heapSet_nil _ _, by simp [heapSet], ?_⟩
      · unfold getSession
        rw [hcc]
        simp only []
        rw [hsd]
      · unfold clearSession getSession
        rw [hcc]
        simp only []
        rw [hsd]
      · intro hnone
        simp only [Option.some.injEq] at hnone
        rw [hnone] at hsd
        simp at hsd

/-- Witness for C8 at a fresh context and empty heap. -/
theorem c8_session_identity_witness :
    getSession { clientContext := some { sessionCookieData := some 0 } } [JObj.nil] =
      .ok (0, { clientContext := some { sessionCookieData := some 0 } }, [JObj.nil]) ∧
    clearSession { clientContext := some { sessionCookieData := some 0 } } [JObj.nil] =
      .ok ({ clientContext := some { sessionCookieData := some 0 } },
        heapSet [JObj.nil] 0 .nil) ∧
    heapGet (heapSet [JObj.nil] 0 .nil) 0 = .nil ∧
    (heapSet [JObj.nil] 0 .nil).length = [JObj.nil].length ∧
    (ctxFresh.clientContext = some { sessionCookieData := none } →
      heapGet [JObj.nil] 0 = .nil) :=
  c8_session_identity ctxFresh [] 0
    { clientContext := some { sessionCookieData := some 0 } } [JObj.nil] rfl

/-- C9: cookie-name resolution defaults to session; an override must be a
non-empty run of ASCII token characters: the empty string,
whitespace-containing names and names with any non-ASCII character fail,
while the three documented examples succeed. -/
theorem c9_cookie_name_resolution (n : String) (c : Char) :
    getCookieName (mkNameEnv none) = .ok "session" ∧
    (∃ e, getCookieName (mkNameEnv (some "")) = .error e) ∧
    (∃ e, getCookieName (mkNameEnv (some " ")) = .error e) ∧
    (∃ e, getCookieName (mkNameEnv (some "session cookie")) = .error e) ∧
    (c ∈ n.data → 128 ≤ c.toNat →
      ∃ e, getCookieName (mkNameEnv (some n)) = .error e) ∧
    getCookieName (mkNameEnv (some "session-cookie")) = .ok "session-cookie" ∧
    getCookieName (mkNameEnv (some "FOOBAR42")) = .ok "FOOBAR42" ∧
    getCookieName (mkNameEnv (some "!!__")) = .ok "!!__" := by
  refine ⟨rfl, ⟨_, rfl⟩, ⟨_, rfl⟩, ⟨_, rfl⟩, ?_, rfl, rfl, rfl⟩
  intro hc hge
  rcases hr : getCookieName (mkNameEnv (some n)) with e | m
  · exact ⟨e, rfl⟩
  · exfalso
    have hm := getCookieName_some_eq (mkNameEnv (some n)) n m rfl hr
    subst hm
    have htok := (getCookieName_ok_token _ _ hr).2 c hc
    have := isCookieTokenChar_bounds c htok
    omega

/-- Witness for C9: a one-character non-ASCII override (U+00E9) fails. -/
theorem c9_cookie_name_resolution_witness :
    ∃ e, getCookieName (mkNameEnv (some (String.mk [Char.ofNat 233]))) = .error e :=
  (c9_cookie_name_resolution (String.mk [Char.ofNat 233]) (Char.ofNat 233)).2.2.2.2.1
    (by decide) (by decide)

/-- A full successful cycle under the standard environment: given the
outcome of the parse phase and of the handler, the wrapper succeeds and
appends one freshly serialized session cookie whose `name=value` prefix is
recoverable. -/
theorem sessionWrapper_envStd_emit (mac : Mac) (handler : Handler) (event : LEvent)
    (h2 h3 : Heap) (resp0 : LResponse)
    (hp : wrapperParsePhase mac [secretStd] "session" event 0 [JObj.nil] = .ok h2)
    (hh : handler event { clientContext := some { sessionCookieData := some 0 } } h2 =
      .ok (h3, resp0)) :
    ∃ out : String,
      sessionWrapper mac envStd handler event ctxFresh [] = .ok (h3,
        { headers := (mergeSetCookie resp0).headers
          multiValueHeaders :=
            some (objSet ((mergeSetCookie resp0).multiValueHeaders.getD []) "Set-Cookie"
              ((objGet ((mergeSetCookie resp0).multiValueHeaders.getD [])
                "Set-Cookie").getD [] ++ [out])) }) ∧
      out.data.takeWhile (fun c => !(c = semiChar)) =
        ("session" ++ "=" ++ encodeURIComponent
          (keygripSign mac [secretStd] (jsonStringify (heapGet h3 0)) ++
            b64EncodeStr (jsonStringify (heapGet h3 0)))).data := by
  obtain ⟨out, hser, htw⟩ := cookieSerialize_ok "session"
    (keygripSign mac [secretStd] (jsonStringify (heapGet h3 0)) ++
      b64EncodeStr (jsonStringify (heapGet h3 0)))
    (getCookieOptions envStd)
    (by decide) (by decide)
    (by
      intro d hd
      rw [show (getCookieOptions envStd).domain = none from rfl] at hd
      exact Option.noConfusion hd)
    (by intro hne; decide)
    (Or.inr (Or.inl rfl))
  refine ⟨out, ?_, htw⟩
  exact sessionWrapper_ok_parts mac envStd handler event ctxFresh [] "session" secretStd
    0 { clientContext := some { sessionCookieData := some 0 } } [JObj.nil] h2 h3 resp0 out
    rfl rfl rfl hp hh hser

/-- C10: a successful cycle always appends exactly one session Set-Cookie
entry, even when the session container is empty and untouched: the emitted
value signs and encodes the serialization of the empty object. -/
theorem c10_empty_session_cookie (mac : Mac) :
    ∃ (h : Heap) (resp : LResponse) (serialized : String),
      sessionWrapper mac envStd handlerOk ev0 ctxFresh [] = .ok (h, resp) ∧
      resp.headers = none ∧
      resp.multiValueHeaders = some [("Set-Cookie", [serialized])] ∧
      firstCookiePair serialized =
        "session=" ++ encodeURIComponent
          (keygripSign mac [secretStd] "\x7b\x7d" ++ b64EncodeStr "\x7b\x7d") := by
  obtain ⟨out, hrun, htw⟩ := sessionWrapper_envStd_emit mac handlerOk ev0
    [JObj.nil] [JObj.nil] { headers := none, multiValueHeaders := none }
    (wrapperParsePhase_none mac [secretStd] "session" ev0 0 [JObj.nil] rfl) rfl
  refine ⟨[JObj.nil], _, out, hrun, rfl, rfl, ?_⟩
  unfold firstCookiePair
  rw [htw]
  exact stringMk_data _

/-- C7 (corrected): with a truthy single-valued Set-Cookie header, the
final multi-valued collection holds the pre-existing multi-valued entries,
then the migrated single value, then the session cookie, and the
single-valued field is deleted; with no single-valued Set-Cookie the
headers object is untouched and the session cookie is appended after the
pre-existing entries. -/
theorem c7_set_cookie_merge (mac : Mac) (hs : List (String × String))
    (mv : List (String × List String)) (v : String) :
    (objGet hs "Set-Cookie" = some v → ¬(v = "") →
      ∃ (h : Heap) (resp : LResponse) (serialized : String),
        sessionWrapper mac envStd
          (handlerConst { headers := some hs, multiValueHeaders := some mv })
          ev0 ctxFresh [] = .ok (h, resp) ∧
        resp.headers = some (objDelete hs "Set-Cookie") ∧
        objGet (resp.multiValueHeaders.getD []) "Set-Cookie" =
          some ((objGet mv "Set-Cookie").getD [] ++ [v] ++ [serialized])) ∧
    (objGet hs "Set-Cookie" = none →
      ∃ (h : Heap) (resp : LResponse) (serialized : String),
        sessionWrapper mac envStd
          (handlerConst { headers := some hs, multiValueHeaders := some mv })
          ev0 ctxFresh [] = .ok (h, resp) ∧
        resp.headers = some hs ∧
        objGet (resp.multiValueHeaders.getD []) "Set-Cookie" =
          some ((objGet mv "Set-Cookie").getD [] ++ [serialized])) := by
  obtain ⟨out, hrun, htw⟩ := sessionWrapper_envStd_emit mac
    (handlerConst { headers := some hs, multiValueHeaders := some mv }) ev0
    [JObj.nil] [JObj.nil] { headers := some hs, multiValueHeaders := some mv }
    (wrapperParsePhase_none mac [secretStd] "session" ev0 0 [JObj.nil] rfl) rfl
  constructor
  · intro hget hv
    have hm := mergeSetCookie_single hs mv v hget hv
    refine ⟨[JObj.nil], _, out, hrun, ?_, ?_⟩
    · rw [hm]
    · rw [hm]
      simp only [Option.getD_some]
      rw [objGet_objSet_self, objGet_objSet_self]
      simp only [Option.getD_some]
  · intro hget
    have hm := mergeSetCookie_noSingle hs mv hget
    refine ⟨[JObj.nil], _, out, hrun, ?_, ?_⟩
    · rw [hm]
    · rw [hm]
      simp only [Option.getD_some]
      rw [objGet_objSet_self, objGet_ensureSetCookie]
      simp only [Option.getD_some]

/-- Witness for C7: one run with a truthy single-valued Set-Cookie next to
a multi-valued entry, one run with no single-valued Set-Cookie. -/
theorem c7_set_cookie_merge_witness :
    (∃ (h : Heap) (resp : LResponse) (serialized : String),
      sessionWrapper macA envStd
        (handlerConst { headers := some [("Set-Cookie", "a=1")],
                        multiValueHeaders := some [("Set-Cookie", ["b=2"])] })
        ev0 ctxFresh [] = .ok (h, resp) ∧
      resp.headers = some (objDelete [("Set-Cookie", "a=1")] "Set-Cookie") ∧
      objGet (resp.multiValueHeaders.getD []) "Set-Cookie" =
        some ((objGet [("Set-Cookie", ["b=2"])] "Set-Cookie").getD []
          ++ ["a=1"] ++ [serialized])) ∧
    (∃ (h : Heap) (resp : LResponse) (serialized : String),
      sessionWrapper macA envStd
        (handlerConst { headers := some [("X-Other", "1")],
                        multiValueHeaders := some [("Set-Cookie", ["b=2"])] })
        ev0 ctxFresh [] = .ok (h, resp) ∧
      resp.headers = some [("X-Other", "1")] ∧
      objGet (resp.multiValueHeaders.getD []) "Set-Cookie" =
        some ((objGet [("Set-Cookie", ["b=2"])] "Set-Cookie").getD [] ++ [serialized])) :=
  ⟨(c7_set_cookie_merge macA [("Set-Cookie", "a=1")] [("Set-Cookie", ["b=2"])] "a=1").1
      rfl (by decide),
   (c7_set_cookie_merge macA [("X-Other", "1")] [("Set-Cookie", ["b=2"])] "").2 rfl⟩

/-- Counterexample to C7 as stated: a handler-set single-valued Set-Cookie
holding the empty string is neither migrated into the multi-valued
collection nor removed from the single-valued headers. -/
theorem c7_counterexample :
    sessionWrapper macA envStd
      (handlerConst { headers := some [("Set-Cookie", "")],
                      multiValueHeaders := some [("Set-Cookie", ["a=1"])] })
      ev0 ctxFresh [] =
      .ok ([JObj.nil],
        { headers := some [("Set-Cookie", "")],
          multiValueHeaders := some [("Set-Cookie",
            ["a=1",
             "session=AAAAAAAAAAAAAAAAAAAAAAAAAAAAAAAAAAAAAAAAAAAe30%3D; Max-Age=604800; Path=/; HttpOnly; Secure; SameSite=Lax"])] }) ∧
    ¬("" ∈ ["a=1",
       "session=AAAAAAAAAAAAAAAAAAAAAAAAAAAAAAAAAAAAAAAAAAAe30%3D; Max-Age=604800; Path=/; HttpOnly; Secure; SameSite=Lax"]) :=
  ⟨rfl, by decide⟩

/-- C6: a session object written by the handler, emitted as the session
Set-Cookie value, and fed back through the `name=value` prefix of that
value as the Cookie header of a fresh request under the same keyring, is
restored deep-equal in the new request's session container. -/
theorem c6_round_trip (mac : Mac) (o : JObj)
    (hlen : ∀ k d, (mac k d).data.length = SIGNATURE_DIGEST_LENGTH)
    (hascii : ∀ k d c, c ∈ (mac k d).data → c.toNat < 128)
    (hnd : o.keys.Nodup) :
    ∃ (h1 : Heap) (r1 : LResponse) (serialized : String) (h2 : Heap) (r2 : LResponse),
      sessionWrapper mac envStd (handlerWrite o) ev0 ctxFresh [] = .ok (h1, r1) ∧
      r1.multiValueHeaders = some [("Set-Cookie", [serialized])] ∧
      sessionWrapper mac envStd handlerOk
        { multiValueHeaders := some [("cookie", [firstCookiePair serialized])] }
        ctxFresh [] = .ok (h2, r2) ∧
      heapGet h2 0 = o := by
  obtain ⟨out, hrun1, htw1⟩ := sessionWrapper_envStd_emit mac (handlerWrite o) ev0
    [JObj.nil] [o] { headers := none, multiValueHeaders := none }
    (wrapperParsePhase_none mac [secretStd] "session" ev0 0 [JObj.nil] rfl) rfl
  rw [show heapGet [o] 0 = o from rfl] at htw1
  have hks : keygripSign mac [secretStd] (jsonStringify o) =
      mac secretStd (jsonStringify o) := rfl
  have hpair : firstCookiePair out =
      "session" ++ "=" ++ encodeURIComponent
        (keygripSign mac [secretStd] (jsonStringify o) ++
          b64EncodeStr (jsonStringify o)) := by
    unfold firstCookiePair
    rw [htw1]
  have hvalascii : ∀ c ∈ (keygripSign mac [secretStd] (jsonStringify o) ++
      b64EncodeStr (jsonStringify o)).data, c.toNat < 128 := by
    intro c hc
    rw [String.data_append] at hc
    rcases List.mem_append.mp hc with hc | hc
    · exact hascii secretStd (jsonStringify o) c (by rw [hks] at hc; exact hc)
    · exact b64EncodeStr_ascii (jsonStringify o) c hc
  have hparse2 : cookieParse (firstCookiePair out) =
      [("session", keygripSign mac [secretStd] (jsonStringify o) ++
        b64EncodeStr (jsonStringify o))] := by
    rw [hpair]
    exact cookieParse_single "session" _ (by decide) hvalascii
  have hraw : ¬((keygripSign mac [secretStd] (jsonStringify o) ++
      b64EncodeStr (jsonStringify o)) = "") := by
    rw [string_eq_empty_iff]
    intro hnil
    have h43 := hlen secretStd (jsonStringify o)
    have hzero : (keygripSign mac [secretStd] (jsonStringify o) ++
        b64EncodeStr (jsonStringify o)).data.length = 0 := by
      rw [hnil]
      rfl
    rw [String.data_append, List.length_append, hks] at hzero
    rw [show SIGNATURE_DIGEST_LENGTH = 43 from rfl] at h43
    omega
  have hread : readSessionData mac [secretStd]
      (keygripSign mac [secretStd] (jsonStringify o) ++ b64EncodeStr (jsonStringify o))
      (heapGet [JObj.nil] 0) = .ok o := by
    rw [hks]
    rw [show heapGet [JObj.nil] 0 = JObj.nil from rfl]
    rw [readSessionData_ok mac [secretStd] secretStd JObj.nil o (by simp) (hlen _ _)]
    rw [jsAssignEntries_toPairs o hnd]
  have hp2 : wrapperParsePhase mac [secretStd] "session"
      { multiValueHeaders := some [("cookie", [firstCookiePair out])] } 0 [JObj.nil] =
      .ok [o] := by
    have hw := wrapperParsePhase_cookie mac [secretStd] "session"
      { multiValueHeaders := some [("cookie", [firstCookiePair out])] } 0 [JObj.nil]
      (firstCookiePair out) []
      (keygripSign mac [secretStd] (jsonStringify o) ++ b64EncodeStr (jsonStringify o)) o
      rfl (by rw [hparse2]; rfl) hraw hread
    rw [show heapSet [JObj.nil] 0 o = [o] from rfl] at hw
    exact hw
  obtain ⟨out2, hrun2, htw2⟩ := sessionWrapper_envStd_emit mac handlerOk
    { multiValueHeaders := some [("cookie", [firstCookiePair out])] } [o] [o]
    { headers := none, multiValueHeaders := none } hp2 rfl
  exact ⟨[o], _, out, [o], _, hrun1, rfl, hrun2, rfl⟩

/-- Witness for C6: the session object with entries a = 1 and b = `x`
survives the round trip under the degenerate 43-character keyed hash. -/
theorem c6_round_trip_witness :
    ∃ (h1 : Heap) (r1 : LResponse) (serialized : String) (h2 : Heap) (r2 : LResponse),
      sessionWrapper macA envStd
        (handlerWrite (JObj.cons "a" (.jnum 1) (.cons "b" (.jstr "x") .nil))) ev0
        ctxFresh [] = .ok (h1, r1) ∧
      r1.multiValueHeaders = some [("Set-Cookie", [serialized])] ∧
      sessionWrapper macA envStd handlerOk
        { multiValueHeaders := some [("cookie", [firstCookiePair serialized])] }
        ctxFresh [] = .ok (h2, r2) ∧
      heapGet h2 0 = JObj.cons "a" (.jnum 1) (.cons "b" (.jstr "x") .nil) :=
  c6_round_trip macA (JObj.cons "a" (.jnum 1) (.cons "b" (.jstr "x") .nil))
    (fun k d => rfl)
    (fun k d c hc => by
      have hce : c = Char.ofNat 65 :=
        List.eq_of_mem_replicate (show c ∈ List.replicate 43 (Char.ofNat 65) from hc)
      rw [hce]
      decide)
    (by decide)
